import Mathlib

/-!
Shallow embedding of the zakc collections library (vector.c, list.c,
hashmap.c) and verification of the frozen claims about it.

Modelling conventions, shared by all three containers:
* C payload handles (`void *`) are modelled by an `Option V` slot where the
  code can observably store or return `NULL` (the hash-map `data` field and
  vector buffer slots), and by a plain `V` where it cannot.
* `usize`/`u64` arithmetic is modelled on `Nat`.  None of the verified
  operation sequences can approach 2^64, so wrap-around is never observable
  and is not modelled.
* Allocation (`malloc`/`calloc`/`realloc`) is modelled as always succeeding;
  the C out-of-memory early-returns are therefore never taken.
* The float load-factor test `nitems + 1 > capacity * 0.8` of hashmap.c is
  modelled by the exact rational test `5 * (nitems + 1) > 4 * capacity`.
  For every capacity below 2^53 the double-precision comparison agrees with
  the exact one (0.8 as a double is 4/5 * (1 + 2^-54), and the accumulated
  relative error stays strictly below a half ulp), so the model is exact on
  all reachable maps.
-/

namespace Zakc

/-! ## Vector (vector.c)

`struct vector { void **data; usize capacity; usize len; }` is modelled with
the backing buffer as a list of slots; `capacity` is the buffer length.
A slot holds `none` where the C buffer holds `NULL` or freshly allocated
(indeterminate) memory, and `some x` where the program stored the handle `x`.
-/

structure Vec (V : Type) where
  data : List (Option V)
  len : Nat
  deriving DecidableEq

/-- `vector_capacity`: the capacity field (kept equal to the buffer size). -/
def vector_capacity {V : Type} (v : Vec V) : Nat := v.data.length

/-- `vector_new`: zero capacity, zero length, `NULL` buffer. -/
def vector_new {V : Type} : Vec V := ⟨[], 0⟩

/-- `vector_reserve`: fails if `capacity < len`; no-op success if equal to the
current capacity; otherwise `realloc` to exactly `capacity` slots (`realloc`
keeps the common prefix; fresh slots are indeterminate, modelled `none`). -/
def vector_reserve {V : Type} (v : Vec V) (c : Nat) : Bool × Vec V :=
  if c < v.len then (false, v)
  else if c = v.data.length then (true, v)
  else (true, ⟨v.data.take c ++ List.replicate (c - v.data.length) none, v.len⟩)

/-- `vector_append`: grow by doubling (0 → 1) when full, then store at `len`
and increment `len`. -/
def vector_append {V : Type} (v : Vec V) (x : V) : Bool × Vec V :=
  let v :=
    if v.len + 1 > v.data.length then
      (vector_reserve v (if v.data.length = 0 then 1 else 2 * v.data.length)).2
    else v
  (true, ⟨v.data.set v.len (some x), v.len + 1⟩)

/-- `vector_resize`: reserve up to `l` if growing past capacity, `memset` the
slots `[len, l)` to zero if growing past the length, then set `len := l`.
(Note: this sets the *length*; it shrinks nothing.) -/
def vector_resize {V : Type} (v : Vec V) (l : Nat) : Bool × Vec V :=
  let v := if l > v.data.length then (vector_reserve v l).2 else v
  let d :=
    if l > v.len then
      v.data.take v.len ++ List.replicate (l - v.len) none ++ v.data.drop l
    else v.data
  (true, ⟨d, l⟩)

/-- `vector_pop`: invalid on an empty vector; otherwise read `data[len-1]`,
decrement `len`, and if `len < capacity/2 && capacity > 1`, call
`vector_resize(vec, capacity / 2)`. -/
def vector_pop {V : Type} (v : Vec V) : Option V × Vec V :=
  if v.len = 0 then (none, v)
  else
    let removed := v.data.getD (v.len - 1) none
    let v' : Vec V := ⟨v.data, v.len - 1⟩
    let v'' :=
      if v'.len < v'.data.length / 2 ∧ v'.data.length > 1 then
        (vector_resize v' (v'.data.length / 2)).2
      else v'
    (removed, v'')

/-- The shift loop of `vector_remove`: `n` iterations of
`data[i] = data[i+1]` starting at `i`. -/
def shiftFrom {V : Type} : List (Option V) → Nat → Nat → List (Option V)
  | d, _, 0 => d
  | d, i, n + 1 => shiftFrom (d.set i (d.getD (i + 1) none)) (i + 1) n

/-- `vector_remove`: invalid only when the buffer is `NULL` or the vector is
empty (the C code has no `index < len` bounds check); reads `data[index]`,
shifts `[index+1, len)` left, decrements `len`, then applies the same
`vector_resize(vec, capacity / 2)` call as `vector_pop`.  A read past the
buffer (`index ≥ capacity`, undefined behaviour in C) is modelled as `none`. -/
def vector_remove {V : Type} (v : Vec V) (idx : Nat) : Option V × Vec V :=
  if v.data.length = 0 ∨ v.len = 0 then (none, v)
  else
    let removed := v.data.getD idx none
    let d := shiftFrom v.data idx (v.len - 1 - idx)
    let v' : Vec V := ⟨d, v.len - 1⟩
    let v'' :=
      if v'.len < v'.data.length / 2 ∧ v'.data.length > 1 then
        (vector_resize v' (v'.data.length / 2)).2
      else v'
    (removed, v'')

/-- `vector_shrink_to_fit`: fails on an empty vector, otherwise
`vector_resize(vec, vec->len)`. -/
def vector_shrink_to_fit {V : Type} (v : Vec V) : Bool × Vec V :=
  if v.len = 0 then (false, v) else vector_resize v v.len

/-- The vector obtained by `vector_new(); append 1; append 2; append 3`
(capacity sequence 0 → 1 → 2 → 4, length 3). -/
def v3 : Vec Nat :=
  (vector_append (vector_append (vector_append vector_new 1).2 2).2 3).2

theorem v3_eval : v3 = ⟨[some 1, some 2, some 3, none], 3⟩ := by decide

/-- Claim C2 (code_bug evidence).  The claim says a `vector_pop` (or
`vector_remove`) returns the removed payload, decrements the length by one,
and — when the new length is below capacity/2 and capacity > 1 — shrinks the
capacity to the new length.  On `v3 = [1,2,3]` (length 3, capacity 4), two
consecutive pops return `3` and `2`, but the second pop's shrink branch calls
`vector_resize(vec, capacity/2)`, which sets the *length* back up to 2
(zero-filling slot 1) and leaves the capacity at 4: the length is not
decremented to 1 and the capacity is never shrunk. -/
theorem c2_pop_resize_bug :
    (vector_pop v3).1 = some 3 ∧ (vector_pop v3).2.len = 2 ∧
    (vector_pop (vector_pop v3).2).1 = some 2 ∧
    (vector_pop (vector_pop v3).2).2.len = 2 ∧
    (vector_pop (vector_pop v3).2).2.len ≠ 1 ∧
    vector_capacity (vector_pop (vector_pop v3).2).2 = 4 ∧
    (vector_pop (vector_pop v3).2).2.data.getD 1 none = none := by decide

/-- Claim C5 (code_bug evidence).  The claim (and the function's own doc
comment) says `vector_remove` at an out-of-bounds index is invalid: it
returns `NULL` and leaves the vector unchanged.  The code only rejects a
`NULL`/empty vector, so `vector_remove(v3, 3)` with `len = 3` reads the
indeterminate slot `data[3]` and still decrements the length from 3 to 2. -/
theorem c5_remove_oob_bug :
    v3.len = 3 ∧ (vector_remove v3 3).2.len = 2 ∧
    (vector_remove v3 3).2.len ≠ v3.len := by decide

/-- Claim C6 (code_bug evidence).  The claim (and the function's own doc
comment) says `vector_shrink_to_fit` reduces the capacity to exactly the
current length.  On `v3` (length 3, capacity 4) it reports success but is a
complete no-op — it calls `vector_resize(vec, len)`, which only assigns the
length field — leaving the capacity at 4, not 3.  (The empty-vector
no-op-failure half of the claim does hold: see the second conjunct set.) -/
theorem c6_shrink_noop_bug :
    (vector_shrink_to_fit v3).1 = true ∧
    (vector_shrink_to_fit v3).2 = v3 ∧
    v3.len = 3 ∧ vector_capacity (vector_shrink_to_fit v3).2 = 4 ∧
    vector_capacity (vector_shrink_to_fit v3).2 ≠ (vector_shrink_to_fit v3).2.len ∧
    (vector_shrink_to_fit (vector_new : Vec Nat)).1 = false ∧
    (vector_shrink_to_fit (vector_new : Vec Nat)).2 = vector_new := by decide

/-! ## Hash map (hashmap.c)

`struct hashmap` holds a hash function, a comparison function, the bucket
array `items` (`NULL` until the first reserve; each bucket a singly linked
chain of `struct item`), the `capacity` of that array and the item count
`nitems`.  `items = NULL` is modelled as `none`; the `capacity` field is
always kept equal to the bucket-array size by the code, so it is modelled as
the length of the bucket list.  An item's `void *data` can be `NULL`, so it
is an `Option V`; keys are opaque handles compared only through `cmp`. -/

structure HEntry (K V : Type) where
  key : K
  data : Option V
  deriving DecidableEq

structure HMap (K V : Type) where
  hash : K → Nat
  cmp : K → K → Bool
  items : Option (List (List (HEntry K V)))
  nitems : Nat

/-- The bucket array (empty when `items` is `NULL`). -/
def bucketsOf {K V : Type} (m : HMap K V) : List (List (HEntry K V)) :=
  m.items.getD []

/-- `hashmap_capacity` on a live map: the `capacity` field (0 when `items`
is `NULL`, otherwise the bucket-array size — the code keeps them in sync). -/
def hm_capacity {K V : Type} (m : HMap K V) : Nat := (bucketsOf m).length

/-- `hashmap_len` on a live map: the `nitems` field. -/
def hm_len {K V : Type} (m : HMap K V) : Nat := m.nitems

/-- All items of the map, in bucket order then chain order. -/
def allEntriesFn {K V : Type} (m : HMap K V) : List (HEntry K V) :=
  (bucketsOf m).flatten

/-- `hashmap_new(hash, cmp)`: capacity 0, `NULL` bucket array, no items. -/
def hashmap_new {K V : Type} (hash : K → Nat) (cmp : K → K → Bool) : HMap K V :=
  ⟨hash, cmp, none, 0⟩

/-- Chain-push of the rehash loop of `hashmap_reserve`: link the item at the
head of the chain `items[hash]` of the new array. -/
def pushBucket {K V : Type} (bs : List (List (HEntry K V))) (i : Nat)
    (e : HEntry K V) : List (List (HEntry K V)) :=
  bs.set i (e :: bs.getD i [])

/-- The rehash of `hashmap_reserve`: a `calloc`ed array of `c` empty chains,
then every item of every old chain (buckets in index order, chains walked
head to tail) pushed at the head of chain `hash(key) % c`. -/
def rehashAll {K V : Type} (hash : K → Nat) (c : Nat)
    (old : List (List (HEntry K V))) : List (List (HEntry K V)) :=
  old.foldl (fun acc chain =>
    chain.foldl (fun a e => pushBucket a (hash e.key % c) e) acc)
    (List.replicate c [])

/-- `hashmap_reserve` on a live map: a no-op reported as success when the
requested capacity is below `nitems`; otherwise a full rehash into a new
array of exactly `capacity` buckets (allocation modelled as succeeding). -/
def hm_reserve {K V : Type} (m : HMap K V) (c : Nat) : HMap K V :=
  if c < m.nitems then m
  else { m with items := some (rehashAll m.hash c (bucketsOf m)) }

/-- The chain walk shared by `hashmap_insert`'s duplicate check,
`hashmap_get` and `hashmap_contains`:
`while (item && !map->cmp(item->key, key)) item = item->next;` on the chain
at `hash(key) % capacity`, yielding the first matching item (`none` when the
bucket array is `NULL` or nothing matches). -/
def hm_findE {K V : Type} (m : HMap K V) (k : K) : Option (HEntry K V) :=
  match m.items with
  | none => none
  | some bs =>
    (bs.getD (m.hash k % bs.length) []).find? (fun e => m.cmp e.key k)

/-- Overwrite of the matched node's `data` field.  The C code mutates the
node found by the pre-resize chain walk; in every map without two items of
the same literal key (all reachable maps — duplicates are excluded by the
comparator check on insert) that node is the unique item whose key is the
matched key, wherever the rehash moved it. -/
def setDataFirst {K V : Type} [DecidableEq K] (mk : K) (v : Option V) :
    List (HEntry K V) → List (HEntry K V)
  | [] => []
  | e :: rest =>
    if e.key = mk then { e with data := v } :: rest
    else e :: setDataFirst mk v rest

/-- Phase 1 of `hashmap_insert`: `if (!map->items) hashmap_reserve(map, 1);`. -/
def insertInit {K V : Type} (m : HMap K V) : HMap K V :=
  if m.items.isNone then hm_reserve m 1 else m

/-- Phase 3 of `hashmap_insert`: the load-factor growth check
`if (map->nitems + 1 > map->capacity * 0.8)` (exact-rational model of the
double comparison, see the header) followed by
`hashmap_reserve(map, map->capacity == 0 ? 1 : map->capacity * 2)`. -/
def insertGrow {K V : Type} (m : HMap K V) : HMap K V :=
  if 5 * (m.nitems + 1) > 4 * (bucketsOf m).length then
    hm_reserve m (if (bucketsOf m).length = 0 then 1 else 2 * (bucketsOf m).length)
  else m

/-- Phase 4a of `hashmap_insert`: `item->data = data;` on the node matched by
the phase-2 walk.  The C code mutates that node wherever the phase-3 rehash
moved it; its bucket is `hash(node->key) % capacity`, and in every map whose
items have pairwise distinct keys (all reachable maps) it is the first — and
only — item of that chain whose key equals the matched key. -/
def overwriteAt {K V : Type} [DecidableEq K] (m : HMap K V) (mk : K)
    (v : Option V) : HMap K V :=
  let bs := bucketsOf m
  let j := m.hash mk % bs.length
  { m with items := some (bs.set j (setDataFirst mk v (bs.getD j []))) }

/-- Phase 4b of `hashmap_insert`: allocate a fresh item, push it at the head
of the chain at (the possibly recomputed) `hash(key) % capacity`, and
increment `nitems`. -/
def pushNew {K V : Type} (m : HMap K V) (k : K) (v : Option V) : HMap K V :=
  let bs := bucketsOf m
  { m with items := some (pushBucket bs (m.hash k % bs.length) ⟨k, v⟩),
           nitems := m.nitems + 1 }

/-- `hashmap_insert` on a live map, mirroring the C control flow exactly:
reserve capacity 1 if `items` is `NULL` (phase 1); chain-walk the bucket
`hash(key) % capacity` for a matching key (phase 2, the `hm_findE` walk);
run the load-factor growth check (phase 3) — after which the C code
recomputes `index`, which `pushNew`/`overwriteAt` do by reading the current
capacity; then overwrite the matched node in place, or push a fresh item
and count it (phase 4). -/
def hm_insert {K V : Type} [DecidableEq K] (m : HMap K V) (k : K)
    (v : Option V) : HMap K V :=
  match (hm_findE (insertInit m) k).map (·.key) with
  | some mk => overwriteAt (insertGrow (insertInit m)) mk v
  | none => pushNew (insertGrow (insertInit m)) k v

/-- The pair walk of `hashmap_remove` over the chain after the head check:
splice out the first match strictly after the head and return its data. -/
def chainRemoveRest {K V : Type} (cmp : K → K → Bool) (k : K) :
    List (HEntry K V) → Option (Option V × List (HEntry K V))
  | [] => none
  | y :: ys =>
    if cmp y.key k then some (y.data, ys)
    else (chainRemoveRest cmp k ys).map (fun p => (p.1, y :: p.2))

/-- `hashmap_remove` on a live map: `NULL` result on a `NULL` bucket array;
otherwise remove the chain head if it matches, else pair-walk the chain;
on a removal, decrement `nitems` and return the removed data (which can
itself be `NULL`, indistinguishable from the not-found result). -/
def hm_remove {K V : Type} (m : HMap K V) (k : K) : Option V × HMap K V :=
  match m.items with
  | none => (none, m)
  | some bs =>
    let idx := m.hash k % bs.length
    match bs.getD idx [] with
    | [] => (none, m)
    | e :: rest =>
      if m.cmp e.key k then
        (e.data, { m with items := some (bs.set idx rest),
                          nitems := m.nitems - 1 })
      else
        match chainRemoveRest m.cmp k rest with
        | some (d, rest') =>
          (d, { m with items := some (bs.set idx (e :: rest')),
                       nitems := m.nitems - 1 })
        | none => (none, m)

/-- `hashmap_get` on a live map: chain walk of bucket `hash(key) % capacity`;
returns the matched item's data (which can be `NULL`) or `NULL` if the
bucket array is `NULL` or no key matches. -/
def hm_get {K V : Type} (m : HMap K V) (k : K) : Option V :=
  match m.items with
  | none => none
  | some bs =>
    match (bs.getD (m.hash k % bs.length) []).find? (fun e => m.cmp e.key k) with
    | some e => e.data
    | none => none

/-- `hashmap_contains` on a live map: same chain walk, boolean result. -/
def hm_contains {K V : Type} (m : HMap K V) (k : K) : Bool :=
  match m.items with
  | none => false
  | some bs => (bs.getD (m.hash k % bs.length) []).any (fun e => m.cmp e.key k)

/-- `hashmap_iter` on a live map: the sequence of `(key, data)` pairs passed
to the callback — buckets in index order, each chain head to tail. -/
def hm_iterList {K V : Type} (m : HMap K V) : List (K × Option V) :=
  (bucketsOf m).foldl (fun acc chain =>
    acc ++ chain.map (fun e => (e.key, e.data))) []

/-! The public entry points take the possibly-`NULL` map handle, as in C. -/

/-- `hashmap_insert`, `NULL`-handle check included. -/
def hashmap_insert {K V : Type} [DecidableEq K] (m : Option (HMap K V))
    (k : K) (v : Option V) : Bool × Option (HMap K V) :=
  match m with
  | none => (false, none)
  | some mm => (true, some (hm_insert mm k v))

/-- `hashmap_remove`, `NULL`-handle check included. -/
def hashmap_remove {K V : Type} (m : Option (HMap K V)) (k : K) :
    Option V × Option (HMap K V) :=
  match m with
  | none => (none, none)
  | some mm =>
    let r := hm_remove mm k
    (r.1, some r.2)

/-- `hashmap_get`, `NULL`-handle check included. -/
def hashmap_get {K V : Type} (m : Option (HMap K V)) (k : K) : Option V :=
  match m with
  | none => none
  | some mm => hm_get mm k

/-- `hashmap_contains`, `NULL`-handle check included. -/
def hashmap_contains {K V : Type} (m : Option (HMap K V)) (k : K) : Bool :=
  match m with
  | none => false
  | some mm => hm_contains mm k

/-- `hashmap_capacity`, `NULL`-handle check included. -/
def hashmap_capacity {K V : Type} (m : Option (HMap K V)) : Nat :=
  match m with
  | none => 0
  | some mm => hm_capacity mm

/-- `hashmap_len`, `NULL`-handle check included. -/
def hashmap_len {K V : Type} (m : Option (HMap K V)) : Nat :=
  match m with
  | none => 0
  | some mm => hm_len mm

/-- `hashmap_reserve`, `NULL`-handle check included. -/
def hashmap_reserve {K V : Type} (m : Option (HMap K V)) (c : Nat) :
    Bool × Option (HMap K V) :=
  match m with
  | none => (false, none)
  | some mm => (true, some (hm_reserve mm c))

/-- `hashmap_iter`, `NULL`-handle check included: the callback invocations. -/
def hashmap_iter {K V : Type} (m : Option (HMap K V)) : List (K × Option V) :=
  match m with
  | none => []
  | some mm => hm_iterList mm

/-- `hashmap_drop`, `NULL`-handle check included: modelled by the sequence
of items whose wrappers it frees (it never frees key/value memory). -/
def hashmap_drop {K V : Type} (m : Option (HMap K V)) : List (K × Option V) :=
  match m with
  | none => []
  | some mm => hm_iterList mm

/-! ### Hash map well-formedness

The data-model invariants of the map (spec §3): every item sits in the chain
at `hash(key) % capacity`, no two items have comparator-equal keys, and
`nitems` counts the items.  All are decidable so that concrete maps can be
checked by `decide`. -/

/-- Bucket-position check: every item of bucket `j₀ + i` hashes to it. -/
def bucketsOkB {K V : Type} (hash : K → Nat) (cap : Nat) :
    Nat → List (List (HEntry K V)) → Bool
  | _, [] => true
  | j, c :: rest =>
    c.all (fun e => hash e.key % cap == j) && bucketsOkB hash cap (j + 1) rest

/-- No two keys of the list are comparator-equal (in either direction). -/
def noDupKeysB {K : Type} (cmp : K → K → Bool) : List K → Bool
  | [] => true
  | k :: rest =>
    rest.all (fun k2 => !cmp k k2 && !cmp k2 k) && noDupKeysB cmp rest

/-- The hash-map invariant. -/
def HWf {K V : Type} (m : HMap K V) : Prop :=
  m.nitems = (allEntriesFn m).length ∧
  bucketsOkB m.hash (hm_capacity m) 0 (bucketsOf m) = true ∧
  noDupKeysB m.cmp ((allEntriesFn m).map (·.key)) = true

instance {K V : Type} [DecidableEq K] [DecidableEq V] (m : HMap K V) :
    Decidable (HWf m) := by
  unfold HWf; infer_instance

/-- A sane pluggable hash/comparison pair: the comparator is an equivalence
and comparator-equal keys hash alike.  The shipped string and byte policies
satisfy this. -/
structure GoodPolicy {K : Type} (hash : K → Nat) (cmp : K → K → Bool) : Prop where
  refl : ∀ k, cmp k k = true
  symm : ∀ a b, cmp a b = true → cmp b a = true
  trans : ∀ a b c, cmp a b = true → cmp b c = true → cmp a c = true
  compat : ∀ a b, cmp a b = true → hash a = hash b

/-! ### List helpers -/

theorem getD_eq_of_getElem? {α : Type} {l : List α} {i : Nat} {c d : α}
    (h : l[i]? = some c) : l.getD i d = c := by
  rw [List.getD_eq_getElem?_getD, h]; rfl

theorem getD_eq_default_of_le {α : Type} {l : List α} {i : Nat} {d : α}
    (h : l.length ≤ i) : l.getD i d = d := by
  rw [List.getD_eq_getElem?_getD, List.getElem?_eq_none h]; rfl

/-- Bucket split of the flattened table: for `j < bs.length`,
`bs.flatten = (take j).flatten ++ bs[j] ++ (drop (j+1)).flatten`. -/
theorem flatten_getD_split {α : Type} (bs : List (List α)) (j : Nat)
    (hj : j < bs.length) :
    bs.flatten =
      (bs.take j).flatten ++ bs.getD j [] ++ (bs.drop (j + 1)).flatten := by
  conv_lhs => rw [← List.take_append_drop j bs]
  rw [List.flatten_append, List.drop_eq_getElem_cons hj, List.flatten_cons,
    getD_eq_of_getElem? (List.getElem?_eq_getElem hj), List.append_assoc]

/-- The same split after replacing bucket `j`. -/
theorem flatten_set_split {α : Type} (bs : List (List α)) (j : Nat)
    (hj : j < bs.length) (c : List α) :
    (bs.set j c).flatten =
      (bs.take j).flatten ++ c ++ (bs.drop (j + 1)).flatten := by
  rw [List.set_eq_take_cons_drop c hj, List.flatten_append, List.flatten_cons,
    List.append_assoc]

theorem mem_flatten_idx {α : Type} {bs : List (List α)} {e : α}
    (h : e ∈ bs.flatten) :
    ∃ (i : Nat) (c : List α), bs[i]? = some c ∧ e ∈ c := by
  obtain ⟨c, hc, he⟩ := List.exists_of_mem_flatten h
  obtain ⟨i, hlt, hi⟩ := List.mem_iff_getElem.mp hc
  exact ⟨i, c, by rw [List.getElem?_eq_getElem hlt, hi], he⟩

theorem getD_mem_flatten {α : Type} {bs : List (List α)} {e : α} (i : Nat)
    (h : e ∈ bs.getD i []) : e ∈ bs.flatten := by
  rcases Nat.lt_or_ge i bs.length with hi | hi
  · rw [flatten_getD_split bs i hi]
    simp only [List.mem_append]
    exact Or.inl (Or.inr h)
  · rw [getD_eq_default_of_le hi] at h
    exact absurd h (List.not_mem_nil e)

theorem getD_sublist_flatten {α : Type} (bs : List (List α)) (i : Nat) :
    (bs.getD i []).Sublist bs.flatten := by
  rcases Nat.lt_or_ge i bs.length with hi | hi
  · rw [flatten_getD_split bs i hi]
    exact (List.sublist_append_right _ _).trans (List.sublist_append_left _ _)
  · rw [getD_eq_default_of_le hi]
    exact List.nil_sublist _

/-- Characterization of the bucket-position check. -/
theorem bucketsOkB_iff {K V : Type} (hash : K → Nat) (cap : Nat) :
    ∀ (j₀ : Nat) (bs : List (List (HEntry K V))),
      bucketsOkB hash cap j₀ bs = true ↔
        ∀ i c, bs[i]? = some c → ∀ e ∈ c, hash e.key % cap = j₀ + i := by
  intro j₀ bs
  induction bs generalizing j₀ with
  | nil => simp [bucketsOkB]
  | cons c₀ rest ih =>
    simp only [bucketsOkB, Bool.and_eq_true, List.all_eq_true, beq_iff_eq,
      ih (j₀ + 1)]
    constructor
    · rintro ⟨h0, hr⟩ i c hc e he
      match i, hc with
      | 0, hc =>
        simp only [List.getElem?_cons_zero, Option.some.injEq] at hc
        subst hc
        simpa using h0 e he
      | i + 1, hc =>
        simp only [List.getElem?_cons_succ] at hc
        have := hr i c hc e he
        omega
    · intro h
      refine ⟨fun e he => by simpa using h 0 c₀ (by simp) e he,
        fun i c hc e he => ?_⟩
      have := h (i + 1) c (by simpa using hc) e he
      omega

/-- Characterization of the duplicate-key check as pairwise disagreement. -/
theorem noDupKeysB_iff {K : Type} (cmp : K → K → Bool) (l : List K) :
    noDupKeysB cmp l = true ↔
      l.Pairwise (fun a b => cmp a b = false ∧ cmp b a = false) := by
  induction l with
  | nil => simp [noDupKeysB]
  | cons k rest ih =>
    simp only [noDupKeysB, Bool.and_eq_true, List.all_eq_true,
      Bool.not_eq_true', List.pairwise_cons, ih]

/-- With a `GoodPolicy`, pairwise-distinct keys admit at most one match. -/
theorem countP_matches_le_one {K : Type} {hash : K → Nat} {cmp : K → K → Bool}
    (hp : GoodPolicy hash cmp) (k : K) :
    ∀ (l : List K),
      l.Pairwise (fun a b => cmp a b = false ∧ cmp b a = false) →
      l.countP (fun kk => cmp kk k) ≤ 1 := by
  intro l hl
  induction l with
  | nil => simp
  | cons k₀ rest ih =>
    rw [List.pairwise_cons] at hl
    rw [List.countP_cons]
    by_cases h0 : cmp k₀ k = true
    · have hrest : rest.countP (fun kk => cmp kk k) = 0 := by
        by_contra hne
        have hpos : 0 < rest.countP (fun kk => cmp kk k) := Nat.pos_of_ne_zero hne
        obtain ⟨k', hk', hk'm⟩ := List.countP_pos.mp hpos
        have h1 : cmp k k' = true := hp.symm _ _ hk'm
        have h2 : cmp k₀ k' = true := hp.trans _ _ _ h0 h1
        exact absurd h2 (by simp [(hl.1 k' hk').1])
      simp [h0, hrest]
    · have h0' : cmp k₀ k = false := by simpa using h0
      simp only [h0']
      simpa using ih hl.2

theorem countP_pos_of_mem {α : Type} {l : List α} {q : α → Bool} {e : α}
    (he : e ∈ l) (hq : q e = true) : 0 < l.countP q :=
  List.countP_pos.mpr ⟨e, he, hq⟩

/-- In a list with at most one match, matching members are equal. -/
theorem eq_of_countP_le_one {α : Type} {q : α → Bool} :
    ∀ {l : List α}, l.countP q ≤ 1 → ∀ {e e' : α},
      e ∈ l → e' ∈ l → q e = true → q e' = true → e = e' := by
  intro l
  induction l with
  | nil => intro _ e e' he; exact absurd he (List.not_mem_nil e)
  | cons x xs ih =>
    intro hc e e' he he' hqe hqe'
    rw [List.countP_cons] at hc
    rcases List.mem_cons.mp he with rfl | hee
    · rcases List.mem_cons.mp he' with rfl | hee'
      · rfl
      · exfalso
        have h1 : 0 < xs.countP q := countP_pos_of_mem hee' hqe'
        rw [if_pos hqe] at hc
        omega
    · rcases List.mem_cons.mp he' with rfl | hee'
      · exfalso
        have h1 : 0 < xs.countP q := countP_pos_of_mem hee hqe
        rw [if_pos hqe'] at hc
        omega
      · exact ih (Nat.le_trans (Nat.le_add_right _ _) hc) hee hee' hqe hqe'

/-- In a list with at most one match, `find?` returns any matching member. -/
theorem find?_eq_of_countP_le_one {α : Type} {q : α → Bool} :
    ∀ {l : List α}, l.countP q ≤ 1 → ∀ {e : α},
      e ∈ l → q e = true → l.find? q = some e := by
  intro l
  induction l with
  | nil => intro _ e he; exact absurd he (List.not_mem_nil e)
  | cons x xs ih =>
    intro hc e he hqe
    rw [List.countP_cons] at hc
    by_cases hx : q x = true
    · have hex : e = x := by
        rcases List.mem_cons.mp he with rfl | hee
        · rfl
        · exfalso
          have h1 : 0 < xs.countP q := countP_pos_of_mem hee hqe
          rw [if_pos hx] at hc
          omega
      simp [List.find?_cons, hx, hex]
    · have hx' : q x = false := by simpa using hx
      rcases List.mem_cons.mp he with rfl | hee
      · rw [hx'] at hqe; exact absurd hqe (by simp)
      · simp only [List.find?_cons, hx', cond_false]
        exact ih (Nat.le_trans (Nat.le_add_right _ _) hc) hee hqe

/-! ### Characterizing the chain walk under the invariant -/

/-- The chain walk in capacity/bucket form (`items = NULL` gives capacity 0
and an empty chain, so the two shapes coincide). -/
theorem findE_eq {K V : Type} (m : HMap K V) (k : K) :
    hm_findE m k =
      ((bucketsOf m).getD (m.hash k % hm_capacity m) []).find?
        (fun e => m.cmp e.key k) := by
  cases hitems : m.items with
  | none =>
    simp [hm_findE, bucketsOf, hm_capacity, hitems, List.getD_eq_getElem?_getD]
  | some bs => simp [hm_findE, bucketsOf, hm_capacity, hitems]

theorem hm_get_eq_findE {K V : Type} (m : HMap K V) (k : K) :
    hm_get m k =
      match hm_findE m k with
      | some e => e.data
      | none => none := by
  unfold hm_get hm_findE
  cases m.items <;> rfl

theorem hm_contains_eq_findE {K V : Type} (m : HMap K V) (k : K) :
    hm_contains m k = (hm_findE m k).isSome := by
  unfold hm_contains hm_findE
  cases m.items with
  | none => rfl
  | some bs =>
    refine Bool.eq_iff_iff.mpr ?_
    rw [List.any_eq_true, List.find?_isSome]

theorem bucketsOf_some {K V : Type} {m : HMap K V}
    {bs : List (List (HEntry K V))} (h : m.items = some bs) :
    bucketsOf m = bs := by
  rw [bucketsOf, h]; rfl

theorem HWf.bucket_correct {K V : Type} {m : HMap K V} (hw : HWf m) :
    ∀ (i : Nat) (c : List (HEntry K V)), (bucketsOf m)[i]? = some c →
      ∀ e ∈ c, m.hash e.key % hm_capacity m = i := by
  intro i c hc e he
  have h := (bucketsOkB_iff m.hash (hm_capacity m) 0 (bucketsOf m)).mp
    hw.2.1 i c hc e he
  simpa using h

theorem HWf.countP_le_one {K V : Type} {m : HMap K V} (hw : HWf m)
    (hp : GoodPolicy m.hash m.cmp) (k : K) :
    (allEntriesFn m).countP (fun e => m.cmp e.key k) ≤ 1 := by
  have hpw := (noDupKeysB_iff m.cmp _).mp hw.2.2
  have h := countP_matches_le_one hp k _ hpw
  rwa [List.countP_map] at h

/-- A matching item lives in the chain that the walk inspects. -/
theorem mem_bucket_of_match {K V : Type} {m : HMap K V} (hw : HWf m)
    (hp : GoodPolicy m.hash m.cmp) {k : K} {e : HEntry K V}
    (he : e ∈ allEntriesFn m) (hm : m.cmp e.key k = true) :
    e ∈ (bucketsOf m).getD (m.hash k % hm_capacity m) [] := by
  obtain ⟨i, c, hc, hec⟩ := mem_flatten_idx he
  have hkey := hw.bucket_correct i c hc e hec
  have hhash : m.hash e.key = m.hash k := hp.compat _ _ hm
  have hik : m.hash k % hm_capacity m = i := by rw [← hhash]; exact hkey
  rw [hik, getD_eq_of_getElem? hc]
  exact hec

/-- The central lookup characterization: under the invariant and a sane
policy, the chain walk finds an item exactly when it is the (unique)
comparator-match anywhere in the table. -/
theorem findE_eq_some_iff {K V : Type} {m : HMap K V} (hw : HWf m)
    (hp : GoodPolicy m.hash m.cmp) (k : K) (e : HEntry K V) :
    hm_findE m k = some e ↔ e ∈ allEntriesFn m ∧ m.cmp e.key k = true := by
  rw [findE_eq]
  constructor
  · intro hfind
    exact ⟨getD_mem_flatten _ (List.mem_of_find?_eq_some hfind),
      by simpa using List.find?_some hfind⟩
  · rintro ⟨hmem, hpred⟩
    have hbucket := mem_bucket_of_match hw hp hmem hpred
    have hcnt := hw.countP_le_one hp k
    have hchain_cnt :
        (((bucketsOf m).getD (m.hash k % hm_capacity m) []).countP
          (fun e => m.cmp e.key k)) ≤ 1 :=
      Nat.le_trans ((getD_sublist_flatten _ _).countP_le _) hcnt
    exact find?_eq_of_countP_le_one hchain_cnt hbucket hpred

theorem findE_eq_none_iff {K V : Type} {m : HMap K V} (hw : HWf m)
    (hp : GoodPolicy m.hash m.cmp) (k : K) :
    hm_findE m k = none ↔
      ∀ e ∈ allEntriesFn m, m.cmp e.key k = false := by
  constructor
  · intro hnone e he
    by_contra hne
    have hpred : m.cmp e.key k = true := by simpa using hne
    have := (findE_eq_some_iff hw hp k e).mpr ⟨he, hpred⟩
    rw [hnone] at this; cases this
  · intro hno
    cases hfe : hm_findE m k with
    | none => rfl
    | some e =>
      obtain ⟨hmem, hpred⟩ := (findE_eq_some_iff hw hp k e).mp hfe
      rw [hno e hmem] at hpred; cases hpred

/-- Frame rule: two invariant-preserving maps with the same policy functions
and the same matching items have the same walk result. -/
theorem findE_congr {K V : Type} {m₁ m₂ : HMap K V} (hw₁ : HWf m₁)
    (hw₂ : HWf m₂) (hh : m₂.hash = m₁.hash) (hc : m₂.cmp = m₁.cmp)
    (hp : GoodPolicy m₁.hash m₁.cmp) (k : K)
    (hmem : ∀ e, m₁.cmp e.key k = true →
      (e ∈ allEntriesFn m₁ ↔ e ∈ allEntriesFn m₂)) :
    hm_findE m₂ k = hm_findE m₁ k := by
  have hp₂ : GoodPolicy m₂.hash m₂.cmp := by rw [hh, hc]; exact hp
  cases hfe : hm_findE m₁ k with
  | some e =>
    obtain ⟨hm₁, hpred⟩ := (findE_eq_some_iff hw₁ hp k e).mp hfe
    exact (findE_eq_some_iff hw₂ hp₂ k e).mpr
      ⟨(hmem e hpred).mp hm₁, by rw [hc]; exact hpred⟩
  | none =>
    have hno := (findE_eq_none_iff hw₁ hp k).mp hfe
    refine (findE_eq_none_iff hw₂ hp₂ k).mpr (fun e he => ?_)
    rw [hc]
    by_contra hne
    have hpred : m₁.cmp e.key k = true := by simpa using hne
    exact absurd (hno e ((hmem e hpred).mpr he)) (by simp [hpred])

/-! ### The rehash of `hashmap_reserve` -/

theorem pushBucket_length {K V : Type} (bs : List (List (HEntry K V)))
    (i : Nat) (e : HEntry K V) : (pushBucket bs i e).length = bs.length :=
  List.length_set bs i _

theorem pushBucket_flatten_perm {K V : Type}
    {bs : List (List (HEntry K V))} {i : Nat} (hi : i < bs.length)
    (e : HEntry K V) :
    (pushBucket bs i e).flatten.Perm (e :: bs.flatten) := by
  unfold pushBucket
  rw [flatten_set_split bs i hi, flatten_getD_split bs i hi]
  simp only [List.append_assoc, List.cons_append]
  exact List.perm_middle

theorem foldl_push_length {K V : Type} (hash : K → Nat) (c : Nat) :
    ∀ (chain : List (HEntry K V)) (acc : List (List (HEntry K V))),
      (chain.foldl (fun a e => pushBucket a (hash e.key % c) e) acc).length
        = acc.length := by
  intro chain
  induction chain with
  | nil => intro acc; rfl
  | cons e rest ih =>
    intro acc
    rw [List.foldl_cons, ih, pushBucket_length]

theorem foldl_push_flatten_perm {K V : Type} (hash : K → Nat) {c : Nat}
    (hc : 0 < c) :
    ∀ (chain : List (HEntry K V)) (acc : List (List (HEntry K V))),
      acc.length = c →
      ((chain.foldl (fun a e => pushBucket a (hash e.key % c) e) acc).flatten).Perm
        (chain ++ acc.flatten) := by
  intro chain
  induction chain with
  | nil => intro acc _; simp
  | cons e rest ih =>
    intro acc hlen
    rw [List.foldl_cons]
    refine (ih (pushBucket acc (hash e.key % c) e)
      (by rw [pushBucket_length]; exact hlen)).trans ?_
    have hp : (pushBucket acc (hash e.key % c) e).flatten.Perm
        (e :: acc.flatten) :=
      pushBucket_flatten_perm (by rw [hlen]; exact Nat.mod_lt _ hc) e
    exact (List.Perm.append_left rest hp).trans List.perm_middle

theorem flatten_replicate_nil {α : Type} (n : Nat) :
    (List.replicate n ([] : List α)).flatten = [] :=
  List.flatten_eq_nil_iff.mpr (fun _ hl => List.eq_of_mem_replicate hl)

theorem rehashAll_length {K V : Type} (hash : K → Nat) (c : Nat)
    (old : List (List (HEntry K V))) : (rehashAll hash c old).length = c := by
  unfold rehashAll
  suffices h : ∀ acc : List (List (HEntry K V)),
      (old.foldl (fun acc chain =>
        chain.foldl (fun a e => pushBucket a (hash e.key % c) e) acc) acc).length
        = acc.length by
    rw [h]; exact List.length_replicate c []
  intro acc
  induction old generalizing acc with
  | nil => rfl
  | cons chain rest ih =>
    rw [List.foldl_cons, ih, foldl_push_length]

theorem rehashAll_flatten_perm {K V : Type} (hash : K → Nat) {c : Nat}
    (hc : 0 < c) (old : List (List (HEntry K V))) :
    (rehashAll hash c old).flatten.Perm old.flatten := by
  unfold rehashAll
  suffices h : ∀ acc : List (List (HEntry K V)), acc.length = c →
      ((old.foldl (fun acc chain =>
        chain.foldl (fun a e => pushBucket a (hash e.key % c) e) acc)
          acc).flatten).Perm (old.flatten ++ acc.flatten) by
    have h2 := h (List.replicate c []) (List.length_replicate c [])
    simpa [flatten_replicate_nil] using h2
  intro acc hlen
  induction old generalizing acc with
  | nil => simp
  | cons chain rest ih =>
    rw [List.foldl_cons]
    refine (ih _ (by rw [foldl_push_length]; exact hlen)).trans ?_
    refine (List.Perm.append_left rest.flatten
      (foldl_push_flatten_perm hash hc chain acc hlen)).trans ?_
    have h3 : (rest.flatten ++ chain) ++ acc.flatten |>.Perm
        ((chain ++ rest.flatten) ++ acc.flatten) :=
      List.perm_append_comm.append_right acc.flatten
    simpa [List.append_assoc, List.flatten_cons] using h3

theorem rehashAll_of_flatten_nil {K V : Type} (hash : K → Nat) (c : Nat)
    {old : List (List (HEntry K V))} (h : old.flatten = []) :
    rehashAll hash c old = List.replicate c [] := by
  unfold rehashAll
  induction old with
  | nil => rfl
  | cons chain rest ih =>
    rw [List.flatten_cons, List.append_eq_nil] at h
    rw [List.foldl_cons, h.1]
    exact ih h.2

/-- The bucket-position invariant, in indexed form. -/
def bucketInv {K V : Type} (hash : K → Nat) (c : Nat)
    (bs : List (List (HEntry K V))) : Prop :=
  ∀ i ch, bs[i]? = some ch → ∀ e ∈ ch, hash e.key % c = i

theorem bucketInv_replicate {K V : Type} (hash : K → Nat) (c n : Nat) :
    bucketInv hash c (List.replicate n ([] : List (HEntry K V))) := by
  intro i ch hch e he
  rw [List.getElem?_replicate] at hch
  split at hch
  · cases hch; exact absurd he (List.not_mem_nil e)
  · cases hch

theorem bucketInv_push {K V : Type} {hash : K → Nat} {c : Nat}
    {bs : List (List (HEntry K V))} (h : bucketInv hash c bs)
    (hlen : bs.length = c) (hc : 0 < c) (e : HEntry K V) :
    bucketInv hash c (pushBucket bs (hash e.key % c) e) := by
  intro i ch hch e' he'
  unfold pushBucket at hch
  by_cases hi : hash e.key % c = i
  · subst hi
    have hlt : hash e.key % c < bs.length := by rw [hlen]; exact Nat.mod_lt _ hc
    rw [List.getElem?_set_self' ] at hch
    · rw [List.getElem?_eq_getElem hlt] at hch
      simp only [Option.map_some, Option.some.injEq] at hch
      subst hch
      rcases List.mem_cons.mp he' with rfl | he''
      · rfl
      · exact h _ _ (List.getElem?_eq_getElem hlt) e'
          (by rwa [getD_eq_of_getElem? (List.getElem?_eq_getElem hlt)] at he'')
  · rw [List.getElem?_set_ne hi] at hch
    exact h i ch hch e' he'

theorem bucketInv_foldl_push {K V : Type} {hash : K → Nat} {c : Nat}
    (hc : 0 < c) :
    ∀ (chain : List (HEntry K V)) (acc : List (List (HEntry K V))),
      bucketInv hash c acc → acc.length = c →
      bucketInv hash c
        (chain.foldl (fun a e => pushBucket a (hash e.key % c) e) acc) := by
  intro chain
  induction chain with
  | nil => intro acc h _; exact h
  | cons e rest ih =>
    intro acc h hlen
    rw [List.foldl_cons]
    exact ih _ (bucketInv_push h hlen hc e)
      (by rw [pushBucket_length]; exact hlen)

theorem bucketInv_rehashAll {K V : Type} {hash : K → Nat} {c : Nat}
    (hc : 0 < c) (old : List (List (HEntry K V))) :
    bucketInv hash c (rehashAll hash c old) := by
  unfold rehashAll
  suffices h : ∀ acc : List (List (HEntry K V)),
      bucketInv hash c acc → acc.length = c →
      bucketInv hash c (old.foldl (fun acc chain =>
        chain.foldl (fun a e => pushBucket a (hash e.key % c) e) acc) acc) by
    exact h _ (bucketInv_replicate hash c c) (List.length_replicate c [])
  intro acc hinv hlen
  induction old generalizing acc with
  | nil => exact hinv
  | cons chain rest ih =>
    rw [List.foldl_cons]
    exact ih _ (bucketInv_foldl_push hc chain acc hinv hlen)
      (by rw [foldl_push_length]; exact hlen)

/-- The key-distinctness relation is symmetric. -/
theorem noDupRel_symm {K : Type} (cmp : K → K → Bool) :
    ∀ {x y : K}, (cmp x y = false ∧ cmp y x = false) →
      (cmp y x = false ∧ cmp x y = false) :=
  fun h => ⟨h.2, h.1⟩

/-- Transfer of the duplicate-key check along a permutation of the keys. -/
theorem noDupKeysB_of_perm {K : Type} (cmp : K → K → Bool)
    {l l' : List K} (hperm : l.Perm l')
    (h : noDupKeysB cmp l = true) : noDupKeysB cmp l' = true := by
  rw [noDupKeysB_iff] at h ⊢
  exact (hperm.pairwise_iff (noDupRel_symm cmp)).mp h

/-- Everything `hashmap_reserve` does to a live map, under the invariant:
it preserves the invariant, permutes no items away, keeps `nitems`, and
sets the capacity to the request unless the no-op branch was taken. -/
theorem hm_reserve_spec {K V : Type} {m : HMap K V} (hw : HWf m) (c : Nat) :
    HWf (hm_reserve m c) ∧
    (allEntriesFn (hm_reserve m c)).Perm (allEntriesFn m) ∧
    (hm_reserve m c).nitems = m.nitems ∧
    (hm_reserve m c).hash = m.hash ∧ (hm_reserve m c).cmp = m.cmp ∧
    hm_capacity (hm_reserve m c) =
      (if c < m.nitems then hm_capacity m else c) := by
  unfold hm_reserve
  by_cases hlt : c < m.nitems
  · rw [if_pos hlt, if_pos hlt]
    exact ⟨hw, List.Perm.refl _, rfl, rfl, rfl, rfl⟩
  · rw [if_neg hlt, if_neg hlt]
    set bs' := rehashAll m.hash c (bucketsOf m) with hbs'
    have hbkt : bucketsOf { m with items := some bs' } = bs' := rfl
    have hcap : hm_capacity { m with items := some bs' } = c := by
      rw [hm_capacity, hbkt, hbs', rehashAll_length]
    have hperm : bs'.flatten.Perm (allEntriesFn m) := by
      rcases Nat.eq_zero_or_pos c with hc0 | hcpos
      · subst hc0
        have hn : m.nitems = 0 := Nat.le_zero.mp (Nat.le_of_not_lt hlt)
        have hlen0 : (allEntriesFn m).length = 0 := by rw [← hw.1]; exact hn
        have hnil : (bucketsOf m).flatten = [] := List.length_eq_zero.mp hlen0
        rw [hbs', rehashAll_of_flatten_nil m.hash 0 hnil]
        rw [allEntriesFn, hnil]
        exact List.Perm.refl _
      · exact rehashAll_flatten_perm m.hash hcpos (bucketsOf m)
    have hentries : allEntriesFn { m with items := some bs' } = bs'.flatten := rfl
    refine ⟨⟨?_, ?_, ?_⟩, by rw [hentries]; exact hperm, rfl, rfl, rfl, hcap⟩
    · rw [hentries, hperm.length_eq]
      exact hw.1
    · rcases Nat.eq_zero_or_pos c with hc0 | hcpos
      · subst hc0
        have hn : m.nitems = 0 := Nat.le_zero.mp (Nat.le_of_not_lt hlt)
        have hlen0 : (allEntriesFn m).length = 0 := by rw [← hw.1]; exact hn
        have hnil : (bucketsOf m).flatten = [] := List.length_eq_zero.mp hlen0
        have : bs' = [] := by
          rw [hbs', rehashAll_of_flatten_nil m.hash 0 hnil]; rfl
        rw [hbkt, this]
        rfl
      · rw [hbkt, hcap]
        refine (bucketsOkB_iff m.hash c 0 bs').mpr ?_
        intro i ch hch e he
        have := bucketInv_rehashAll hcpos (bucketsOf m) i ch (hbs' ▸ hch) e he
        simpa using this
    · have hkperm : ((allEntriesFn m).map (·.key)).Perm
          ((allEntriesFn { m with items := some bs' }).map (·.key)) := by
        rw [hentries]
        exact (hperm.map _).symm
      exact noDupKeysB_of_perm m.cmp hkperm hw.2.2

/-! ### The two insert outcomes -/

theorem cap_pos_of_mem {K V : Type} {m : HMap K V} {e : HEntry K V}
    (he : e ∈ allEntriesFn m) : 0 < hm_capacity m := by
  obtain ⟨i, c, hc, _⟩ := mem_flatten_idx he
  have : i < (bucketsOf m).length := by
    by_contra hge
    rw [List.getElem?_eq_none (Nat.le_of_not_lt hge)] at hc
    cases hc
  unfold hm_capacity
  omega

/-- Every item is found in its own bucket. -/
theorem mem_own_bucket {K V : Type} {m : HMap K V} (hw : HWf m)
    {e : HEntry K V} (he : e ∈ allEntriesFn m) :
    e ∈ (bucketsOf m).getD (m.hash e.key % hm_capacity m) [] := by
  obtain ⟨i, c, hc, hec⟩ := mem_flatten_idx he
  have hkey := hw.bucket_correct i c hc e hec
  rw [hkey, getD_eq_of_getElem? hc]
  exact hec

/-- First-occurrence decomposition for a key present in a chain. -/
theorem exists_key_split {K V : Type} [DecidableEq K] {mk : K} :
    ∀ {l : List (HEntry K V)}, (∃ x ∈ l, x.key = mk) →
      ∃ a e₁ b, l = a ++ e₁ :: b ∧ e₁.key = mk ∧ ∀ x ∈ a, x.key ≠ mk := by
  intro l
  induction l with
  | nil => rintro ⟨x, hx, _⟩; exact absurd hx (List.not_mem_nil x)
  | cons y ys ih =>
    rintro ⟨x, hx, hxk⟩
    by_cases hy : y.key = mk
    · exact ⟨[], y, ys, rfl, hy, by intro x hx; exact absurd hx (List.not_mem_nil x)⟩
    · rcases List.mem_cons.mp hx with rfl | hxs
      · exact absurd hxk hy
      · obtain ⟨a, e₁, b, hsplit, he₁, ha⟩ := ih ⟨x, hxs, hxk⟩
        refine ⟨y :: a, e₁, b, by rw [hsplit]; rfl, he₁, ?_⟩
        intro z hz
        rcases List.mem_cons.mp hz with rfl | hza
        · exact hy
        · exact ha z hza

theorem setDataFirst_split {K V : Type} [DecidableEq K] {mk : K}
    (v : Option V) :
    ∀ (a : List (HEntry K V)) (e₁ : HEntry K V) (b : List (HEntry K V)),
      (∀ x ∈ a, x.key ≠ mk) → e₁.key = mk →
      setDataFirst mk v (a ++ e₁ :: b) = a ++ { e₁ with data := v } :: b := by
  intro a
  induction a with
  | nil =>
    intro e₁ b _ he₁
    simp [setDataFirst, he₁]
  | cons y ys ih =>
    intro e₁ b ha he₁
    have hy : y.key ≠ mk := ha y (List.mem_cons_self y ys)
    have ih' := ih e₁ b (fun x hx => ha x (List.mem_cons_of_mem y hx)) he₁
    simp only [List.cons_append, setDataFirst, if_neg hy]
    simp only [List.append_eq] at ih' ⊢
    rw [ih']

theorem setDataFirst_keys {K V : Type} [DecidableEq K] (mk : K)
    (v : Option V) : ∀ (l : List (HEntry K V)),
      (setDataFirst mk v l).map (·.key) = l.map (·.key) := by
  intro l
  induction l with
  | nil => rfl
  | cons y ys ih =>
    by_cases hy : y.key = mk
    · simp [setDataFirst, hy]
    · simp only [setDataFirst, if_neg hy, List.map_cons]
      rw [ih]

/-- `overwriteAt`: in-place data overwrite of the unique item keyed `mk`. -/
theorem overwriteAt_spec {K V : Type} [DecidableEq K] {m : HMap K V}
    (hw : HWf m) (hp : GoodPolicy m.hash m.cmp) {mk k : K} {e₀ : HEntry K V}
    (v : Option V) (he₀ : e₀ ∈ allEntriesFn m) (hkey : e₀.key = mk)
    (hmatch : m.cmp mk k = true) :
    HWf (overwriteAt m mk v) ∧
    (∃ P S, allEntriesFn m = P ++ e₀ :: S ∧
      allEntriesFn (overwriteAt m mk v) = P ++ (⟨mk, v⟩ : HEntry K V) :: S) ∧
    (overwriteAt m mk v).nitems = m.nitems ∧
    (overwriteAt m mk v).hash = m.hash ∧ (overwriteAt m mk v).cmp = m.cmp ∧
    hm_capacity (overwriteAt m mk v) = hm_capacity m := by
  have hcap : 0 < hm_capacity m := cap_pos_of_mem he₀
  have hmatch₀ : m.cmp e₀.key k = true := by rw [hkey]; exact hmatch
  have hhash : m.hash e₀.key = m.hash mk := by rw [hkey]
  have hj : m.hash mk % hm_capacity m < (bucketsOf m).length :=
    Nat.mod_lt _ hcap
  set j := m.hash mk % hm_capacity m with hjdef
  set chain := (bucketsOf m).getD j [] with hchain
  have he₀c : e₀ ∈ chain := by
    have h := mem_own_bucket hw he₀
    rwa [hhash] at h
  obtain ⟨a, e₁, b, hsplit, he₁k, ha⟩ :=
    exists_key_split ⟨e₀, he₀c, hkey⟩
  -- the two candidate items are equal, by at-most-one-match
  have he₁m : e₁ ∈ allEntriesFn m := by
    refine getD_mem_flatten j ?_
    rw [← hchain, hsplit]
    exact List.mem_append_right a (List.mem_cons_self e₁ b)
  have he₁pred : m.cmp e₁.key k = true := by rw [he₁k]; exact hmatch
  have he₀e₁ : e₁ = e₀ :=
    eq_of_countP_le_one (hw.countP_le_one hp k) he₁m he₀ he₁pred hmatch₀
  subst he₀e₁
  have hset : setDataFirst mk v chain = a ++ { e₁ with data := v } :: b := by
    rw [hsplit]
    exact setDataFirst_split v a e₁ b ha he₁k
  have hnewk : ({ e₁ with data := v } : HEntry K V) = ⟨mk, v⟩ := by
    cases e₁
    subst he₁k
    rfl
  have hbkt : bucketsOf (overwriteAt m mk v)
      = (bucketsOf m).set j (setDataFirst mk v chain) := rfl
  have hcap' : hm_capacity (overwriteAt m mk v) = hm_capacity m := by
    unfold hm_capacity
    rw [hbkt, List.length_set]
  have hent : allEntriesFn (overwriteAt m mk v)
      = ((bucketsOf m).take j).flatten ++ (a ++ ⟨mk, v⟩ :: b)
        ++ ((bucketsOf m).drop (j + 1)).flatten := by
    rw [allEntriesFn, hbkt, flatten_set_split _ j hj, hset, hnewk]
  have hentm : allEntriesFn m
      = ((bucketsOf m).take j).flatten ++ (a ++ e₁ :: b)
        ++ ((bucketsOf m).drop (j + 1)).flatten := by
    rw [allEntriesFn, flatten_getD_split _ j hj, ← hchain, hsplit]
  have hdecomp : allEntriesFn m
      = (((bucketsOf m).take j).flatten ++ a) ++ e₁ ::
        (b ++ ((bucketsOf m).drop (j + 1)).flatten) := by
    rw [hentm]; simp [List.append_assoc]
  have hdecomp' : allEntriesFn (overwriteAt m mk v)
      = (((bucketsOf m).take j).flatten ++ a) ++ (⟨mk, v⟩ : HEntry K V) ::
        (b ++ ((bucketsOf m).drop (j + 1)).flatten) := by
    rw [hent]; simp [List.append_assoc]
  have hkeys : (allEntriesFn (overwriteAt m mk v)).map (·.key)
      = (allEntriesFn m).map (·.key) := by
    rw [hdecomp, hdecomp']
    simp [he₁k]
  refine ⟨⟨?_, ?_, ?_⟩, ⟨_, _, hdecomp, hdecomp'⟩, rfl, rfl, rfl, hcap'⟩
  · show m.nitems = (allEntriesFn (overwriteAt m mk v)).length
    rw [hdecomp', hw.1, hdecomp]
    simp
  · refine (bucketsOkB_iff _ _ 0 _).mpr ?_
    intro i ch hch e he
    simp only [Nat.zero_add]
    rw [hcap']
    rw [hbkt] at hch
    have hjorig : (bucketsOf m)[j]? = some chain := by
      rw [List.getElem?_eq_getElem hj, hchain,
        getD_eq_of_getElem? (List.getElem?_eq_getElem hj)]
    by_cases hij : j = i
    · subst hij
      have hjget : ((bucketsOf m).set j (setDataFirst mk v chain))[j]?
          = some (setDataFirst mk v chain) := by
        rw [List.getElem?_set_self']
        rw [hjorig]
        rfl
      rw [hjget] at hch
      injection hch with hch
      subst hch
      have hkmem : e.key ∈ chain.map (·.key) := by
        have h1 : e.key ∈ (setDataFirst mk v chain).map (·.key) :=
          List.mem_map_of_mem _ he
        rwa [setDataFirst_keys] at h1
      obtain ⟨x, hx, hxk⟩ := List.mem_map.mp hkmem
      have hxc := hw.bucket_correct j chain hjorig x hx
      rw [← hxk]
      exact hxc
    · rw [List.getElem?_set_ne hij] at hch
      exact hw.bucket_correct i ch hch e he
  · rw [hkeys]
    exact hw.2.2

/-- `pushNew`: chain-push of a fresh item for an absent key. -/
theorem pushNew_spec {K V : Type} {m : HMap K V} (hw : HWf m)
    (hp : GoodPolicy m.hash m.cmp) (k : K) (v : Option V)
    (hno : ∀ e ∈ allEntriesFn m, m.cmp e.key k = false)
    (hcap : 0 < hm_capacity m) :
    HWf (pushNew m k v) ∧
    (∃ P S, allEntriesFn m = P ++ S ∧
      allEntriesFn (pushNew m k v) = P ++ (⟨k, v⟩ : HEntry K V) :: S) ∧
    (pushNew m k v).nitems = m.nitems + 1 ∧
    (pushNew m k v).hash = m.hash ∧ (pushNew m k v).cmp = m.cmp ∧
    hm_capacity (pushNew m k v) = hm_capacity m := by
  have hj : m.hash k % hm_capacity m < (bucketsOf m).length :=
    Nat.mod_lt _ hcap
  set j := m.hash k % hm_capacity m with hjdef
  set chain := (bucketsOf m).getD j [] with hchain
  have hbkt : bucketsOf (pushNew m k v)
      = (bucketsOf m).set j ((⟨k, v⟩ : HEntry K V) :: chain) := rfl
  have hcap' : hm_capacity (pushNew m k v) = hm_capacity m := by
    unfold hm_capacity
    rw [hbkt, List.length_set]
  have hentm : allEntriesFn m
      = ((bucketsOf m).take j).flatten ++ chain
        ++ ((bucketsOf m).drop (j + 1)).flatten := by
    rw [allEntriesFn, flatten_getD_split _ j hj, ← hchain]
  have hent : allEntriesFn (pushNew m k v)
      = ((bucketsOf m).take j).flatten ++ ((⟨k, v⟩ : HEntry K V) :: chain)
        ++ ((bucketsOf m).drop (j + 1)).flatten := by
    rw [allEntriesFn, hbkt, flatten_set_split _ j hj]
  have hdecomp : allEntriesFn m
      = ((bucketsOf m).take j).flatten
        ++ (chain ++ ((bucketsOf m).drop (j + 1)).flatten) := by
    rw [hentm]; simp [List.append_assoc]
  have hdecomp' : allEntriesFn (pushNew m k v)
      = ((bucketsOf m).take j).flatten ++ (⟨k, v⟩ : HEntry K V) ::
        (chain ++ ((bucketsOf m).drop (j + 1)).flatten) := by
    rw [hent]; simp [List.append_assoc]
  have hperm : (allEntriesFn (pushNew m k v)).Perm
      ((⟨k, v⟩ : HEntry K V) :: allEntriesFn m) := by
    rw [hdecomp, hdecomp']
    exact List.perm_middle
  have hjorig : (bucketsOf m)[j]? = some chain := by
    rw [List.getElem?_eq_getElem hj, hchain,
      getD_eq_of_getElem? (List.getElem?_eq_getElem hj)]
  refine ⟨⟨?_, ?_, ?_⟩, ⟨_, _, hdecomp, hdecomp'⟩, rfl, rfl, rfl, hcap'⟩
  · show m.nitems + 1 = (allEntriesFn (pushNew m k v)).length
    rw [hperm.length_eq, List.length_cons, hw.1]
  · refine (bucketsOkB_iff _ _ 0 _).mpr ?_
    intro i ch hch e he
    simp only [Nat.zero_add]
    rw [hcap']
    rw [hbkt] at hch
    by_cases hij : j = i
    · subst hij
      have hjget : ((bucketsOf m).set j ((⟨k, v⟩ : HEntry K V) :: chain))[j]?
          = some ((⟨k, v⟩ : HEntry K V) :: chain) := by
        rw [List.getElem?_set_self']
        rw [hjorig]
        rfl
      rw [hjget] at hch
      injection hch with hch
      subst hch
      rcases List.mem_cons.mp he with rfl | hec
      · rfl
      · exact hw.bucket_correct j chain hjorig e hec
    · rw [List.getElem?_set_ne hij] at hch
      exact hw.bucket_correct i ch hch e he
  · have hkperm : ((allEntriesFn (pushNew m k v)).map (·.key)).Perm
        (k :: (allEntriesFn m).map (·.key)) := by
      have h := hperm.map (·.key)
      simpa using h
    refine noDupKeysB_of_perm m.cmp hkperm.symm ?_
    rw [noDupKeysB_iff, List.pairwise_cons]
    refine ⟨?_, (noDupKeysB_iff m.cmp _).mp hw.2.2⟩
    intro kk hkk
    obtain ⟨x, hx, hxk⟩ := List.mem_map.mp hkk
    have h1 : m.cmp x.key k = false := hno x hx
    subst hxk
    constructor
    · by_contra hne
      have h2 : m.cmp k x.key = true := by simpa using hne
      rw [hp.symm _ _ h2] at h1
      cases h1
    · exact h1

/-! ### Assembling `hashmap_insert` -/

theorem insertInit_spec {K V : Type} {m : HMap K V} (hw : HWf m) :
    HWf (insertInit m) ∧
    (allEntriesFn (insertInit m)).Perm (allEntriesFn m) ∧
    (insertInit m).nitems = m.nitems ∧
    (insertInit m).hash = m.hash ∧ (insertInit m).cmp = m.cmp := by
  unfold insertInit
  by_cases hn : m.items.isNone = true
  · rw [if_pos hn]
    obtain ⟨h1, h2, h3, h4, h5, _⟩ := hm_reserve_spec hw 1
    exact ⟨h1, h2, h3, h4, h5⟩
  · rw [if_neg hn]
    exact ⟨hw, List.Perm.refl _, rfl, rfl, rfl⟩

theorem insertGrow_spec {K V : Type} {m : HMap K V} (hw : HWf m) :
    HWf (insertGrow m) ∧
    (allEntriesFn (insertGrow m)).Perm (allEntriesFn m) ∧
    (insertGrow m).nitems = m.nitems ∧
    (insertGrow m).hash = m.hash ∧ (insertGrow m).cmp = m.cmp := by
  unfold insertGrow
  by_cases hc : 5 * (m.nitems + 1) > 4 * (bucketsOf m).length
  · rw [if_pos hc]
    obtain ⟨h1, h2, h3, h4, h5, _⟩ := hm_reserve_spec hw
      (if (bucketsOf m).length = 0 then 1 else 2 * (bucketsOf m).length)
    exact ⟨h1, h2, h3, h4, h5⟩
  · rw [if_neg hc]
    exact ⟨hw, List.Perm.refl _, rfl, rfl, rfl⟩

theorem HWf.entries_nil_of_cap_zero {K V : Type} {m : HMap K V} (hw : HWf m)
    (h : hm_capacity m = 0) : allEntriesFn m = [] ∧ m.nitems = 0 := by
  have hbs : bucketsOf m = [] := List.length_eq_zero.mp h
  have he : allEntriesFn m = [] := by rw [allEntriesFn, hbs]; rfl
  exact ⟨he, by rw [hw.1, he]; rfl⟩

/-- After the growth check of a well-formed map, the capacity is positive:
the only zero-capacity case is the empty table, which the check always grows
to capacity 1. -/
theorem insertGrow_capacity_pos {K V : Type} {m : HMap K V} (hw : HWf m) :
    0 < hm_capacity (insertGrow m) := by
  unfold insertGrow
  by_cases hc : 5 * (m.nitems + 1) > 4 * (bucketsOf m).length
  · rw [if_pos hc]
    obtain ⟨_, _, _, _, _, hcap⟩ := hm_reserve_spec hw
      (if (bucketsOf m).length = 0 then 1 else 2 * (bucketsOf m).length)
    rw [hcap]
    by_cases hlt :
        (if (bucketsOf m).length = 0 then 1 else 2 * (bucketsOf m).length)
          < m.nitems
    · rw [if_pos hlt]
      by_contra h0
      have hcap0 : hm_capacity m = 0 := by omega
      obtain ⟨_, hn0⟩ := hw.entries_nil_of_cap_zero hcap0
      have hb0 : (bucketsOf m).length = 0 := hcap0
      rw [if_pos hb0] at hlt
      omega
    · rw [if_neg hlt]
      by_cases hb0 : (bucketsOf m).length = 0
      · rw [if_pos hb0]
        exact Nat.one_pos
      · rw [if_neg hb0]
        omega
  · rw [if_neg hc]
    show 0 < (bucketsOf m).length
    omega

theorem items_some_of_contains {K V : Type} {m : HMap K V} {k : K}
    (h : hm_contains m k = true) : m.items.isNone = false := by
  unfold hm_contains at h
  cases hi : m.items with
  | none => rw [hi] at h; cases h
  | some bs => rfl

theorem insertInit_of_contains {K V : Type} {m : HMap K V} {k : K}
    (h : hm_contains m k = true) : insertInit m = m := by
  unfold insertInit
  simp [items_some_of_contains h]

theorem cap_pos_of_contains {K V : Type} {m : HMap K V} {k : K}
    (h : hm_contains m k = true) : 0 < hm_capacity m := by
  unfold hm_contains at h
  cases hi : m.items with
  | none => rw [hi] at h; cases h
  | some bs =>
    rw [hi] at h
    obtain ⟨e, he, _⟩ := List.any_eq_true.mp h
    refine cap_pos_of_mem (show e ∈ allEntriesFn m from ?_)
    rw [allEntriesFn, bucketsOf_some hi]
    exact getD_mem_flatten _ he

/-- The phase-2 walk finds something exactly when `hashmap_contains` does on
the original map (the phase-1 reserve of an uninitialized map rehashes an
empty table). -/
theorem matched_eq_contains {K V : Type} {m : HMap K V} (hw : HWf m)
    (hp : GoodPolicy m.hash m.cmp) (k : K) :
    ((hm_findE (insertInit m) k).map (·.key)).isSome = hm_contains m k := by
  cases hi : m.items.isNone with
  | false =>
    have hm1 : insertInit m = m := by unfold insertInit; simp [hi]
    rw [hm1, hm_contains_eq_findE]
    cases hm_findE m k <;> rfl
  | true =>
    have hm1 : insertInit m = hm_reserve m 1 := by unfold insertInit; simp [hi]
    have hent : allEntriesFn m = [] := by
      unfold allEntriesFn bucketsOf
      cases hitem : m.items with
      | none => rfl
      | some bs => rw [hitem] at hi; cases hi
    obtain ⟨hw1, hperm, _, hh, hc, _⟩ := hm_reserve_spec hw 1
    have hnil : allEntriesFn (hm_reserve m 1) = [] := by
      rw [hent] at hperm
      exact hperm.eq_nil
    have hfn : hm_findE (hm_reserve m 1) k = none := by
      refine (findE_eq_none_iff hw1 (by rw [hh, hc]; exact hp) k).mpr ?_
      rw [hnil]
      intro e he
      exact absurd he (List.not_mem_nil e)
    rw [hm1, hfn]
    unfold hm_contains
    cases hitem : m.items with
    | none => rfl
    | some bs => rw [hitem] at hi; cases hi

/-- The full specification of `hashmap_insert` on a well-formed map with a
sane policy: invariant preservation; `get` of the inserted key returns the
new value; lookups of unrelated keys are untouched; an overwriting insert
keeps `nitems` and the key multiset and obeys the growth formula; a fresh
insert increments `nitems`. -/
theorem hm_insert_spec {K V : Type} [DecidableEq K] {m : HMap K V}
    (hw : HWf m) (hp : GoodPolicy m.hash m.cmp) (k : K) (v : Option V) :
    HWf (hm_insert m k v) ∧
    (hm_insert m k v).hash = m.hash ∧ (hm_insert m k v).cmp = m.cmp ∧
    hm_get (hm_insert m k v) k = v ∧
    (∀ k₂, m.cmp k k₂ = false →
      hm_findE (hm_insert m k v) k₂ = hm_findE m k₂) ∧
    (hm_contains m k = true →
      (hm_insert m k v).nitems = m.nitems ∧
      ((allEntriesFn (hm_insert m k v)).map (·.key)).Perm
        ((allEntriesFn m).map (·.key)) ∧
      (5 * m.nitems ≤ 4 * hm_capacity m →
        hm_capacity (hm_insert m k v) =
          (if 5 * (m.nitems + 1) > 4 * hm_capacity m
           then 2 * hm_capacity m else hm_capacity m))) ∧
    (hm_contains m k = false → (hm_insert m k v).nitems = m.nitems + 1) := by
  obtain ⟨hw1, hperm1, hn1, hh1, hc1⟩ := insertInit_spec hw
  have hp1 : GoodPolicy (insertInit m).hash (insertInit m).cmp := by
    rw [hh1, hc1]; exact hp
  obtain ⟨hw2, hperm2, hn2, hh2, hc2⟩ := insertGrow_spec hw1
  have hp2 : GoodPolicy (insertGrow (insertInit m)).hash
      (insertGrow (insertInit m)).cmp := by
    rw [hh2, hc2, hh1, hc1]; exact hp
  have hcap2 : 0 < hm_capacity (insertGrow (insertInit m)) :=
    insertGrow_capacity_pos hw1
  have hmc := matched_eq_contains hw hp k
  cases hmt : (hm_findE (insertInit m) k).map (·.key) with
  | some mk =>
    have hresult : hm_insert m k v
        = overwriteAt (insertGrow (insertInit m)) mk v := by
      unfold hm_insert
      rw [hmt]
    obtain ⟨e₀, hferes, hkeymk⟩ :
        ∃ e₀, hm_findE (insertInit m) k = some e₀ ∧ e₀.key = mk := by
      cases hfe : hm_findE (insertInit m) k with
      | none => rw [hfe] at hmt; cases hmt
      | some e =>
        rw [hfe] at hmt
        exact ⟨e, rfl, by injection hmt⟩
    obtain ⟨he₀1, hpred1⟩ := (findE_eq_some_iff hw1 hp1 k e₀).mp hferes
    have hpred : m.cmp e₀.key k = true := by rw [← hc1]; exact hpred1
    have hpredmk : m.cmp mk k = true := by rw [← hkeymk]; exact hpred
    have he₀2 : e₀ ∈ allEntriesFn (insertGrow (insertInit m)) :=
      hperm2.mem_iff.mpr he₀1
    have hmatchmk : (insertGrow (insertInit m)).cmp mk k = true := by
      rw [hc2, hc1]; exact hpredmk
    obtain ⟨hwR, ⟨P, S, hdm2, hdR⟩, hnR, hhR, hcR, hcapR⟩ :=
      overwriteAt_spec hw2 hp2 v he₀2 hkeymk hmatchmk
    have hhres : (hm_insert m k v).hash = m.hash := by
      rw [hresult, hhR, hh2, hh1]
    have hcres : (hm_insert m k v).cmp = m.cmp := by
      rw [hresult, hcR, hc2, hc1]
    have hwres : HWf (hm_insert m k v) := by rw [hresult]; exact hwR
    have hpres : GoodPolicy (hm_insert m k v).hash (hm_insert m k v).cmp := by
      rw [hhres, hcres]; exact hp
    have hmemR : (⟨mk, v⟩ : HEntry K V)
        ∈ allEntriesFn (overwriteAt (insertGrow (insertInit m)) mk v) := by
      rw [hdR]
      exact List.mem_append_right P (List.mem_cons_self _ _)
    have hfeR : hm_findE (hm_insert m k v) k = some ⟨mk, v⟩ := by
      rw [hresult]
      refine (findE_eq_some_iff hwR (by rw [hhR, hcR]; exact hp2) k _).mpr
        ⟨hmemR, ?_⟩
      show (overwriteAt (insertGrow (insertInit m)) mk v).cmp mk k = true
      rw [hcR, hc2, hc1]
      exact hpredmk
    refine ⟨hwres, hhres, hcres, ?_, ?_, ?_, ?_⟩
    · rw [hm_get_eq_findE, hfeR]
    · -- frame
      intro k₂ hk2
      have hnotk₂ : ∀ e : HEntry K V, m.cmp e.key k₂ = true → e.key ≠ mk := by
        intro e he hkeq
        rw [hkeq] at he
        have h1 : m.cmp k mk = true := hp.symm _ _ hpredmk
        have h2 : m.cmp k k₂ = true := hp.trans _ _ _ h1 he
        rw [hk2] at h2
        cases h2
      refine findE_congr hw hwres hhres hcres hp k₂ ?_
      intro e hek₂
      have hne₀ : e ≠ e₀ := by
        intro hne
        exact hnotk₂ e hek₂ (by rw [hne]; exact hkeymk)
      have hnemk : e ≠ (⟨mk, v⟩ : HEntry K V) := by
        intro hne
        exact hnotk₂ e hek₂ (by rw [hne])
      rw [hresult]
      rw [← hperm1.mem_iff, ← hperm2.mem_iff, hdm2, hdR]
      simp only [List.mem_append, List.mem_cons]
      constructor
      · rintro (h | h | h)
        · exact Or.inl h
        · exact absurd h hne₀
        · exact Or.inr (Or.inr h)
      · rintro (h | h | h)
        · exact Or.inl h
        · exact absurd h hnemk
        · exact Or.inr (Or.inr h)
    · intro hcont
      refine ⟨by rw [hresult, hnR, hn2, hn1], ?_, ?_⟩
      · have hkeq : (allEntriesFn (hm_insert m k v)).map (·.key)
            = (allEntriesFn (insertGrow (insertInit m))).map (·.key) := by
          rw [hresult, hdR, hdm2]
          simp [hkeymk]
        rw [hkeq]
        exact (hperm2.map _).trans (hperm1.map _)
      · intro hload
        have hm1m : insertInit m = m := insertInit_of_contains hcont
        have hcapm : 0 < hm_capacity m := cap_pos_of_contains hcont
        have hcapres : hm_capacity (hm_insert m k v)
            = hm_capacity (insertGrow (insertInit m)) := by
          rw [hresult, hcapR]
        rw [hcapres, hm1m]
        unfold insertGrow
        by_cases hchk : 5 * (m.nitems + 1) > 4 * (bucketsOf m).length
        · rw [if_pos hchk]
          have hb0 : ¬ (bucketsOf m).length = 0 := by
            show ¬ hm_capacity m = 0
            omega
          rw [if_neg hb0]
          obtain ⟨_, _, _, _, _, hcapr⟩ := hm_reserve_spec hw
            (2 * (bucketsOf m).length)
          rw [hcapr]
          have hnlt : ¬ 2 * (bucketsOf m).length < m.nitems := by
            show ¬ 2 * hm_capacity m < m.nitems
            omega
          rw [if_neg hnlt]
          show 2 * (bucketsOf m).length =
            if 5 * (m.nitems + 1) > 4 * (bucketsOf m).length then
              2 * (bucketsOf m).length
            else (bucketsOf m).length
          rw [if_pos hchk]
        · rw [if_neg hchk]
          show hm_capacity m =
            if 5 * (m.nitems + 1) > 4 * (bucketsOf m).length then
              2 * (bucketsOf m).length
            else (bucketsOf m).length
          rw [if_neg hchk]
          rfl
    · intro hcont
      rw [← hmc, hmt] at hcont
      cases hcont
  | none =>
    have hresult : hm_insert m k v = pushNew (insertGrow (insertInit m)) k v := by
      unfold hm_insert
      rw [hmt]
    have hfe1 : hm_findE (insertInit m) k = none := by
      cases hfe : hm_findE (insertInit m) k with
      | none => rfl
      | some e => rw [hfe] at hmt; cases hmt
    have hno1 := (findE_eq_none_iff hw1 hp1 k).mp hfe1
    have hno2 : ∀ e ∈ allEntriesFn (insertGrow (insertInit m)),
        (insertGrow (insertInit m)).cmp e.key k = false := by
      intro e he
      rw [hc2]
      exact hno1 e (hperm2.mem_iff.mp he)
    obtain ⟨hwR, ⟨P, S, hdm2, hdR⟩, hnR, hhR, hcR, hcapR⟩ :=
      pushNew_spec hw2 hp2 k v hno2 hcap2
    have hhres : (hm_insert m k v).hash = m.hash := by
      rw [hresult, hhR, hh2, hh1]
    have hcres : (hm_insert m k v).cmp = m.cmp := by
      rw [hresult, hcR, hc2, hc1]
    have hwres : HWf (hm_insert m k v) := by rw [hresult]; exact hwR
    have hmemR : (⟨k, v⟩ : HEntry K V)
        ∈ allEntriesFn (pushNew (insertGrow (insertInit m)) k v) := by
      rw [hdR]
      exact List.mem_append_right P (List.mem_cons_self _ _)
    have hfeR : hm_findE (hm_insert m k v) k = some ⟨k, v⟩ := by
      rw [hresult]
      refine (findE_eq_some_iff hwR (by rw [hhR, hcR]; exact hp2) k _).mpr
        ⟨hmemR, ?_⟩
      show (pushNew (insertGrow (insertInit m)) k v).cmp k k = true
      rw [hcR, hc2, hc1]
      exact hp.refl k
    refine ⟨hwres, hhres, hcres, ?_, ?_, ?_, ?_⟩
    · rw [hm_get_eq_findE, hfeR]
    · intro k₂ hk2
      refine findE_congr hw hwres hhres hcres hp k₂ ?_
      intro e hek₂
      have hnek : e ≠ (⟨k, v⟩ : HEntry K V) := by
        intro hne
        rw [hne] at hek₂
        show False
        rw [show ((⟨k, v⟩ : HEntry K V).key) = k from rfl] at hek₂
        rw [hk2] at hek₂
        cases hek₂
      rw [hresult]
      rw [← hperm1.mem_iff, ← hperm2.mem_iff, hdm2, hdR]
      simp only [List.mem_append, List.mem_cons]
      constructor
      · rintro (h | h)
        · exact Or.inl h
        · exact Or.inr (Or.inr h)
      · rintro (h | h | h)
        · exact Or.inl h
        · exact absurd h hnek
        · exact Or.inr h
    · intro hcont
      rw [← hmc, hmt] at hcont
      cases hcont
    · intro _
      rw [hresult, hnR, hn2, hn1]

/-! ### `hashmap_remove` -/

theorem chainRemoveRest_none_iff {K V : Type} (cmp : K → K → Bool) (k : K) :
    ∀ (l : List (HEntry K V)), chainRemoveRest cmp k l = none ↔
      ∀ y ∈ l, cmp y.key k = false := by
  intro l
  induction l with
  | nil => simp [chainRemoveRest]
  | cons y ys ih =>
    simp only [chainRemoveRest]
    by_cases hy : cmp y.key k = true
    · rw [if_pos hy]
      constructor
      · intro h; cases h
      · intro h
        exact absurd (h y (List.mem_cons_self y ys)) (by simp [hy])
    · have hy' : cmp y.key k = false := by simpa using hy
      rw [if_neg hy, Option.map_eq_none', ih]
      constructor
      · intro h z hz
        rcases List.mem_cons.mp hz with rfl | hzs
        · exact hy'
        · exact h z hzs
      · intro h z hz
        exact h z (List.mem_cons_of_mem y hz)

theorem chainRemoveRest_some {K V : Type} (cmp : K → K → Bool) (k : K) :
    ∀ (l : List (HEntry K V)) (d : Option V) (l' : List (HEntry K V)),
      chainRemoveRest cmp k l = some (d, l') →
      ∃ a y b, l = a ++ y :: b ∧ cmp y.key k = true ∧ d = y.data ∧
        l' = a ++ b := by
  intro l
  induction l with
  | nil => intro d l' h; cases h
  | cons y ys ih =>
    intro d l' h
    simp only [chainRemoveRest] at h
    by_cases hy : cmp y.key k = true
    · rw [if_pos hy] at h
      injection h with h
      injection h with h1 h2
      exact ⟨[], y, ys, rfl, hy, h1.symm, h2.symm⟩
    · rw [if_neg hy, Option.map_eq_some'] at h
      obtain ⟨⟨d₀, l₀⟩, hp, hfp⟩ := h
      obtain ⟨a, z, b, hsplit, hz, hd, hl'⟩ := ih d₀ l₀ hp
      injection hfp with hfp1 hfp2
      refine ⟨y :: a, z, b, ?_, hz, ?_, ?_⟩
      · rw [hsplit]; rfl
      · rw [← hfp1]; exact hd
      · rw [← hfp2, hl']; rfl

/-- Splicing the item `e₀` out of bucket `idx` yields a well-formed map with
that one item gone. -/
theorem removeBucket_spec {K V : Type} {m : HMap K V} (hw : HWf m)
    {idx : Nat} {A B : List (HEntry K V)} {e₀ : HEntry K V}
    (hchain : (bucketsOf m).getD idx [] = A ++ e₀ :: B) :
    HWf { m with items := some ((bucketsOf m).set idx (A ++ B)),
                 nitems := m.nitems - 1 } ∧
    allEntriesFn m
      = (((bucketsOf m).take idx).flatten ++ A) ++ e₀ ::
        (B ++ ((bucketsOf m).drop (idx + 1)).flatten) ∧
    allEntriesFn { m with items := some ((bucketsOf m).set idx (A ++ B)),
                          nitems := m.nitems - 1 }
      = (((bucketsOf m).take idx).flatten ++ A) ++
        (B ++ ((bucketsOf m).drop (idx + 1)).flatten) ∧
    hm_capacity { m with items := some ((bucketsOf m).set idx (A ++ B)),
                         nitems := m.nitems - 1 } = hm_capacity m := by
  have hidx : idx < (bucketsOf m).length := by
    by_contra hge
    rw [getD_eq_default_of_le (Nat.le_of_not_lt hge)] at hchain
    exact absurd hchain.symm (List.append_ne_nil_of_right_ne_nil A
      (List.cons_ne_nil e₀ B))
  have hbkt : bucketsOf { m with
      items := some ((bucketsOf m).set idx (A ++ B)),
      nitems := m.nitems - 1 } = (bucketsOf m).set idx (A ++ B) := rfl
  have hcap' : hm_capacity { m with
      items := some ((bucketsOf m).set idx (A ++ B)),
      nitems := m.nitems - 1 } = hm_capacity m := by
    unfold hm_capacity
    rw [hbkt, List.length_set]
  have hentm : allEntriesFn m
      = ((bucketsOf m).take idx).flatten ++ (A ++ e₀ :: B)
        ++ ((bucketsOf m).drop (idx + 1)).flatten := by
    rw [allEntriesFn, flatten_getD_split _ idx hidx, hchain]
  have hent' : allEntriesFn { m with
      items := some ((bucketsOf m).set idx (A ++ B)),
      nitems := m.nitems - 1 }
      = ((bucketsOf m).take idx).flatten ++ (A ++ B)
        ++ ((bucketsOf m).drop (idx + 1)).flatten := by
    rw [allEntriesFn, hbkt, flatten_set_split _ idx hidx]
  have hdecomp : allEntriesFn m
      = (((bucketsOf m).take idx).flatten ++ A) ++ e₀ ::
        (B ++ ((bucketsOf m).drop (idx + 1)).flatten) := by
    rw [hentm]; simp [List.append_assoc]
  have hdecomp' : allEntriesFn { m with
      items := some ((bucketsOf m).set idx (A ++ B)),
      nitems := m.nitems - 1 }
      = (((bucketsOf m).take idx).flatten ++ A) ++
        (B ++ ((bucketsOf m).drop (idx + 1)).flatten) := by
    rw [hent']; simp [List.append_assoc]
  have hsub : (allEntriesFn { m with
      items := some ((bucketsOf m).set idx (A ++ B)),
      nitems := m.nitems - 1 }).Sublist (allEntriesFn m) := by
    rw [hdecomp, hdecomp']
    exact List.Sublist.append_left (List.sublist_cons_self e₀ _) _
  have hjorig : (bucketsOf m)[idx]? = some (A ++ e₀ :: B) := by
    rw [List.getElem?_eq_getElem hidx,
      ← getD_eq_of_getElem? (List.getElem?_eq_getElem hidx), hchain]
  refine ⟨⟨?_, ?_, ?_⟩, hdecomp, hdecomp', hcap'⟩
  · show m.nitems - 1 = _
    rw [hdecomp', hw.1, hdecomp]
    simp only [List.length_append, List.length_cons]
    omega
  · refine (bucketsOkB_iff _ _ 0 _).mpr ?_
    intro i ch hch e he
    simp only [Nat.zero_add]
    rw [hcap']
    rw [hbkt] at hch
    by_cases hij : idx = i
    · subst hij
      have hjget : ((bucketsOf m).set idx (A ++ B))[idx]? = some (A ++ B) := by
        rw [List.getElem?_set_self', hjorig]
        rfl
      rw [hjget] at hch
      injection hch with hch
      subst hch
      refine hw.bucket_correct idx (A ++ e₀ :: B) hjorig e ?_
      rcases List.mem_append.mp he with h | h
      · exact List.mem_append_left _ h
      · exact List.mem_append_right _ (List.mem_cons_of_mem e₀ h)
    · rw [List.getElem?_set_ne hij] at hch
      exact hw.bucket_correct i ch hch e he
  · have hkeys : ((allEntriesFn { m with
        items := some ((bucketsOf m).set idx (A ++ B)),
        nitems := m.nitems - 1 }).map (·.key)).Sublist
        ((allEntriesFn m).map (·.key)) := hsub.map _
    rw [noDupKeysB_iff]
    exact List.Pairwise.sublist hkeys ((noDupKeysB_iff m.cmp _).mp hw.2.2)

/-- The full specification of `hashmap_remove` on a well-formed map: the
invariant is preserved; a missing key is a `NULL`-result no-op; a present
key has exactly one item spliced out and its data returned; lookups of
unrelated keys are untouched. -/
theorem hm_remove_spec {K V : Type} {m : HMap K V} (hw : HWf m)
    (hp : GoodPolicy m.hash m.cmp) (k : K) :
    HWf (hm_remove m k).2 ∧
    (hm_remove m k).2.hash = m.hash ∧ (hm_remove m k).2.cmp = m.cmp ∧
    hm_capacity (hm_remove m k).2 = hm_capacity m ∧
    (hm_contains m k = false → hm_remove m k = (none, m)) ∧
    (hm_contains m k = true →
      ∃ e₀ P S, m.cmp e₀.key k = true ∧
        allEntriesFn m = P ++ e₀ :: S ∧
        allEntriesFn (hm_remove m k).2 = P ++ S ∧
        (hm_remove m k).1 = e₀.data ∧
        (hm_remove m k).2.nitems = m.nitems - 1) ∧
    (∀ k₂, m.cmp k k₂ = false →
      hm_findE (hm_remove m k).2 k₂ = hm_findE m k₂) := by
  cases hitems : m.items with
  | none =>
    have hres : hm_remove m k = (none, m) := by
      unfold hm_remove
      rw [hitems]
    have hcont : hm_contains m k = false := by
      unfold hm_contains
      rw [hitems]
    rw [hres]
    refine ⟨hw, rfl, rfl, rfl, fun _ => rfl, ?_, fun k₂ _ => rfl⟩
    intro h
    rw [hcont] at h
    cases h
  | some bs =>
    have hbsm : bucketsOf m = bs := bucketsOf_some hitems
    cases hchain : bs.getD (m.hash k % bs.length) [] with
    | nil =>
      have hres : hm_remove m k = (none, m) := by
        simp only [hm_remove, hitems, hchain]
      have hcont : hm_contains m k = false := by
        simp only [hm_contains, hitems, hchain]
        rfl
      rw [hres]
      refine ⟨hw, rfl, rfl, rfl, fun _ => rfl, ?_, fun k₂ _ => rfl⟩
      intro h
      rw [hcont] at h
      cases h
    | cons e rest =>
      by_cases hhead : m.cmp e.key k = true
      · -- the chain head matches: `items[index] = item->next`
        have hres : hm_remove m k
            = (e.data, { m with
                items := some (bs.set (m.hash k % bs.length) rest),
                nitems := m.nitems - 1 }) := by
          simp only [hm_remove, hitems, hchain, hhead, if_true]
        have hcont : hm_contains m k = true := by
          simp only [hm_contains, hitems, hchain]
          simp [hhead]
        have hchainA : (bucketsOf m).getD (m.hash k % bs.length) []
            = [] ++ e :: rest := by
          rw [hbsm, hchain]
          rfl
        obtain ⟨hw', hdm, hd', hcap'⟩ := removeBucket_spec hw hchainA
        rw [hbsm] at hw' hdm hd' hcap'
        rw [hres]
        refine ⟨hw', rfl, rfl, hcap', ?_, ?_, ?_⟩
        · intro h
          rw [hcont] at h
          cases h
        · intro _
          exact ⟨e, _, _, hhead, hdm, hd', rfl, rfl⟩
        · intro k₂ hk2
          have hnotk₂ : m.cmp e.key k₂ = false := by
            by_contra hne
            have h1 : m.cmp e.key k₂ = true := by simpa using hne
            have h2 : m.cmp k e.key = true := hp.symm _ _ hhead
            have h3 : m.cmp k k₂ = true := hp.trans _ _ _ h2 h1
            rw [hk2] at h3
            cases h3
          have hmem : ∀ x : HEntry K V, m.cmp x.key k₂ = true →
              (x ∈ allEntriesFn m ↔ x ∈ allEntriesFn { m with
                items := some (bs.set (m.hash k % bs.length) ([] ++ rest)),
                nitems := m.nitems - 1 }) := by
            intro x hx
            have hnee : x ≠ e := by
              intro hne
              rw [hne, hnotk₂] at hx
              cases hx
            rw [hdm, hd']
            simp only [List.mem_append, List.mem_cons]
            constructor
            · rintro (h | h | h)
              · exact Or.inl h
              · exact absurd h hnee
              · exact Or.inr h
            · rintro (h | h)
              · exact Or.inl h
              · exact Or.inr (Or.inr h)
          exact findE_congr hw hw' rfl rfl hp k₂ hmem
      · cases hcrr : chainRemoveRest m.cmp k rest with
        | some p =>
          obtain ⟨d, rest'⟩ := p
          obtain ⟨a, y, b, hsplit, hy, hd, hrest'⟩ :=
            chainRemoveRest_some m.cmp k rest d rest' hcrr
          have hres : hm_remove m k
              = (d, { m with
                  items := some (bs.set (m.hash k % bs.length) (e :: rest')),
                  nitems := m.nitems - 1 }) := by
            simp only [hm_remove, hitems, hchain, hcrr, hhead,
              Bool.false_eq_true, if_false]
          have hcont : hm_contains m k = true := by
            simp only [hm_contains, hitems, hchain]
            refine List.any_eq_true.mpr ⟨y, ?_, hy⟩
            refine List.mem_cons_of_mem e ?_
            rw [hsplit]
            exact List.mem_append_right a (List.mem_cons_self y b)
          have hchainA : (bucketsOf m).getD (m.hash k % bs.length) []
              = (e :: a) ++ y :: b := by
            rw [hbsm, hchain, hsplit]
            rfl
          obtain ⟨hw', hdm, hd', hcap'⟩ := removeBucket_spec hw hchainA
          rw [hbsm] at hw' hdm hd' hcap'
          have hsetsame : bs.set (m.hash k % bs.length) (e :: rest')
              = bs.set (m.hash k % bs.length) ((e :: a) ++ b) := by
            rw [hrest']
            rfl
          rw [hres, hsetsame]
          refine ⟨hw', rfl, rfl, hcap', ?_, ?_, ?_⟩
          · intro h
            rw [hcont] at h
            cases h
          · intro _
            exact ⟨y, _, _, hy, hdm, hd', hd, rfl⟩
          · intro k₂ hk2
            have hnotk₂ : m.cmp y.key k₂ = false := by
              by_contra hne
              have h1 : m.cmp y.key k₂ = true := by simpa using hne
              have h2 : m.cmp k y.key = true := hp.symm _ _ hy
              have h3 : m.cmp k k₂ = true := hp.trans _ _ _ h2 h1
              rw [hk2] at h3
              cases h3
            have hmem : ∀ x : HEntry K V, m.cmp x.key k₂ = true →
                (x ∈ allEntriesFn m ↔ x ∈ allEntriesFn { m with
                  items := some (bs.set (m.hash k % bs.length) ((e :: a) ++ b)),
                  nitems := m.nitems - 1 }) := by
              intro x hx
              have hney : x ≠ y := by
                intro hne
                rw [hne, hnotk₂] at hx
                cases hx
              rw [hdm, hd']
              simp only [List.mem_append, List.mem_cons]
              constructor
              · rintro (h | h | h)
                · exact Or.inl h
                · exact absurd h hney
                · exact Or.inr h
              · rintro (h | h)
                · exact Or.inl h
                · exact Or.inr (Or.inr h)
            exact findE_congr hw hw' rfl rfl hp k₂ hmem
        | none =>
          have hres : hm_remove m k = (none, m) := by
            simp only [hm_remove, hitems, hchain, hcrr, hhead,
              Bool.false_eq_true, if_false]
          have hcont : hm_contains m k = false := by
            simp only [hm_contains, hitems, hchain]
            rw [List.any_eq_false]
            intro x hx
            rcases List.mem_cons.mp hx with rfl | hxs
            · simpa using hhead
            · simp [(chainRemoveRest_none_iff m.cmp k rest).mp hcrr x hxs]
          rw [hres]
          refine ⟨hw, rfl, rfl, rfl, fun _ => rfl, ?_, fun k₂ _ => rfl⟩
          intro h
          rw [hcont] at h
          cases h

/-! ### Sequences of public hash-map operations -/

/-- A public mutating hash-map operation. -/
inductive HOp (K V : Type) where
  | ins (k : K) (v : Option V)
  | rem (k : K)
  | res (c : Nat)

/-- Apply one public operation to a live map. -/
def applyH {K V : Type} [DecidableEq K] (m : HMap K V) : HOp K V → HMap K V
  | .ins k v => hm_insert m k v
  | .rem k => (hm_remove m k).2
  | .res c => hm_reserve m c

/-- The operation neither overwrites nor removes (a key comparator-equal to)
`k`. -/
def avoidsKey {K V : Type} (cmp : K → K → Bool) (k : K) : HOp K V → Prop
  | .ins k2 _ => cmp k2 k = false
  | .rem k2 => cmp k2 k = false
  | .res _ => True

instance {K V : Type} (cmp : K → K → Bool) (k : K) (op : HOp K V) :
    Decidable (avoidsKey cmp k op) :=
  match op with
  | .ins k2 _ => inferInstanceAs (Decidable (cmp k2 k = false))
  | .rem k2 => inferInstanceAs (Decidable (cmp k2 k = false))
  | .res _ => inferInstanceAs (Decidable True)

/-- Operations that avoid `k` do not disturb `hashmap_get(map, k)`. -/
theorem get_persists {K V : Type} [DecidableEq K] :
    ∀ (ops : List (HOp K V)) (m : HMap K V), HWf m →
      GoodPolicy m.hash m.cmp →
      ∀ (k : K), (∀ op ∈ ops, avoidsKey m.cmp k op) →
      hm_get (ops.foldl applyH m) k = hm_get m k ∧
      HWf (ops.foldl applyH m) ∧
      (ops.foldl applyH m).hash = m.hash ∧
      (ops.foldl applyH m).cmp = m.cmp := by
  intro ops
  induction ops with
  | nil => intro m hw _ k _; exact ⟨rfl, hw, rfl, rfl⟩
  | cons op rest ih =>
    intro m hw hp k havoid
    rw [List.foldl_cons]
    have hstep : hm_get (applyH m op) k = hm_get m k ∧ HWf (applyH m op) ∧
        (applyH m op).hash = m.hash ∧ (applyH m op).cmp = m.cmp := by
      cases op with
      | ins k2 v2 =>
        obtain ⟨hwi, hhi, hci, _, hframe, _, _⟩ := hm_insert_spec hw hp k2 v2
        have hk2 : m.cmp k2 k = false :=
          havoid (.ins k2 v2) (List.mem_cons_self _ _)
        refine ⟨?_, hwi, hhi, hci⟩
        rw [hm_get_eq_findE, hm_get_eq_findE]
        show (match hm_findE (hm_insert m k2 v2) k with
          | some e => e.data | none => none) = _
        rw [hframe k hk2]
      | rem k2 =>
        obtain ⟨hwr, hhr, hcr, _, _, _, hframe⟩ := hm_remove_spec hw hp k2
        have hk2 : m.cmp k2 k = false :=
          havoid (.rem k2) (List.mem_cons_self _ _)
        refine ⟨?_, hwr, hhr, hcr⟩
        rw [hm_get_eq_findE, hm_get_eq_findE]
        show (match hm_findE (hm_remove m k2).2 k with
          | some e => e.data | none => none) = _
        rw [hframe k hk2]
      | res c =>
        obtain ⟨hwre, hperm, _, hhre, hcre, _⟩ := hm_reserve_spec hw c
        refine ⟨?_, hwre, hhre, hcre⟩
        rw [hm_get_eq_findE, hm_get_eq_findE]
        show (match hm_findE (hm_reserve m c) k with
          | some e => e.data | none => none) = _
        rw [findE_congr hw hwre hhre hcre hp k (fun e _ => hperm.mem_iff.symm)]
    have hp' : GoodPolicy (applyH m op).hash (applyH m op).cmp := by
      rw [hstep.2.2.1, hstep.2.2.2]; exact hp
    have havoid' : ∀ op2 ∈ rest, avoidsKey (applyH m op).cmp k op2 := by
      rw [hstep.2.2.2]
      intro op2 hop2
      exact havoid op2 (List.mem_cons_of_mem op hop2)
    obtain ⟨hg, hwf, hh, hc⟩ := ih (applyH m op) hstep.2.1 hp' k havoid'
    exact ⟨hg.trans hstep.1, hwf, hh.trans hstep.2.2.1, hc.trans hstep.2.2.2⟩

/-! ### Capacity and count along operations -/

theorem overwriteAt_capacity {K V : Type} [DecidableEq K] (m : HMap K V)
    (mk : K) (v : Option V) :
    hm_capacity (overwriteAt m mk v) = hm_capacity m := by
  show ((bucketsOf m).set _ _).length = _
  rw [List.length_set]
  rfl

theorem pushNew_capacity {K V : Type} (m : HMap K V) (k : K) (v : Option V) :
    hm_capacity (pushNew m k v) = hm_capacity m := by
  show ((bucketsOf m).set _ _).length = _
  rw [List.length_set]
  rfl

theorem HWf_new {K V : Type} (hash : K → Nat) (cmp : K → K → Bool) :
    HWf (hashmap_new hash cmp : HMap K V) := by
  refine ⟨rfl, rfl, rfl⟩

/-- Insert keeps the capacity positive and the load factor within bound. -/
theorem hm_insert_load {K V : Type} [DecidableEq K] {m : HMap K V}
    (hw : HWf m) (_hp : GoodPolicy m.hash m.cmp) (k : K) (v : Option V)
    (hitems : m.items = none ∨ 0 < hm_capacity m)
    (hload : 0 < hm_capacity m → 5 * m.nitems ≤ 4 * hm_capacity m) :
    0 < hm_capacity (hm_insert m k v) ∧
    5 * (hm_insert m k v).nitems ≤ 4 * hm_capacity (hm_insert m k v) := by
  obtain ⟨hw1, hperm1, hn1, hh1, hc1⟩ := insertInit_spec hw
  have hstage1 : 0 < hm_capacity (insertInit m) ∧
      5 * (insertInit m).nitems ≤ 4 * hm_capacity (insertInit m) := by
    rcases hitems with hnone | hpos
    · have hent : allEntriesFn m = [] := by
        rw [allEntriesFn, bucketsOf, hnone]; rfl
      have hn0 : m.nitems = 0 := by rw [hw.1, hent]; rfl
      have hinit : insertInit m = hm_reserve m 1 := by
        unfold insertInit
        rw [hnone]
        rfl
      obtain ⟨_, _, hnres, _, _, hcap1⟩ := hm_reserve_spec hw 1
      have hno : ¬ 1 < m.nitems := by omega
      rw [hinit, hcap1, if_neg hno, hnres]
      omega
    · have hitemsome : ∃ bs, m.items = some bs := by
        cases hit : m.items with
        | none =>
          exfalso
          have : bucketsOf m = [] := by rw [bucketsOf, hit]; rfl
          unfold hm_capacity at hpos
          rw [this] at hpos
          exact absurd hpos (by simp)
        | some bs => exact ⟨bs, rfl⟩
      obtain ⟨bs, hit⟩ := hitemsome
      have hinit : insertInit m = m := by
        unfold insertInit
        rw [hit]
        rfl
      rw [hinit]
      exact ⟨hpos, hload hpos⟩
  have hcapform : hm_capacity (insertGrow (insertInit m)) =
      (if 5 * ((insertInit m).nitems + 1) > 4 * hm_capacity (insertInit m)
       then 2 * hm_capacity (insertInit m)
       else hm_capacity (insertInit m)) := by
    unfold insertGrow
    by_cases hchk : 5 * ((insertInit m).nitems + 1)
        > 4 * (bucketsOf (insertInit m)).length
    · rw [if_pos hchk]
      have hb0 : ¬ (bucketsOf (insertInit m)).length = 0 := by
        have h1 := hstage1.1
        unfold hm_capacity at h1
        omega
      rw [if_neg hb0]
      obtain ⟨_, _, _, _, _, hcapr⟩ := hm_reserve_spec hw1
        (2 * (bucketsOf (insertInit m)).length)
      rw [hcapr]
      have hnlt : ¬ 2 * (bucketsOf (insertInit m)).length
          < (insertInit m).nitems := by
        have h2 := hstage1.2
        unfold hm_capacity at h2
        omega
      rw [if_neg hnlt]
      show 2 * (bucketsOf (insertInit m)).length =
        if 5 * ((insertInit m).nitems + 1)
            > 4 * (bucketsOf (insertInit m)).length then
          2 * (bucketsOf (insertInit m)).length
        else (bucketsOf (insertInit m)).length
      rw [if_pos hchk]
    · rw [if_neg hchk]
      show hm_capacity (insertInit m) =
        if 5 * ((insertInit m).nitems + 1)
            > 4 * (bucketsOf (insertInit m)).length then
          2 * (bucketsOf (insertInit m)).length
        else (bucketsOf (insertInit m)).length
      rw [if_neg hchk]
      rfl
  obtain ⟨hw2, hperm2, hn2, hh2, hc2⟩ := insertGrow_spec hw1
  cases hmt : (hm_findE (insertInit m) k).map (·.key) with
  | some mk =>
    have hresult : hm_insert m k v
        = overwriteAt (insertGrow (insertInit m)) mk v := by
      unfold hm_insert
      rw [hmt]
    rw [hresult, overwriteAt_capacity]
    show 0 < hm_capacity (insertGrow (insertInit m)) ∧
      5 * (insertGrow (insertInit m)).nitems
        ≤ 4 * hm_capacity (insertGrow (insertInit m))
    rw [hcapform, hn2]
    by_cases hchk : 5 * ((insertInit m).nitems + 1)
        > 4 * hm_capacity (insertInit m)
    · rw [if_pos hchk]
      obtain ⟨h1, h2⟩ := hstage1
      omega
    · rw [if_neg hchk]
      obtain ⟨h1, h2⟩ := hstage1
      omega
  | none =>
    have hresult : hm_insert m k v
        = pushNew (insertGrow (insertInit m)) k v := by
      unfold hm_insert
      rw [hmt]
    rw [hresult, pushNew_capacity]
    show 0 < hm_capacity (insertGrow (insertInit m)) ∧
      5 * ((insertGrow (insertInit m)).nitems + 1)
        ≤ 4 * hm_capacity (insertGrow (insertInit m))
    rw [hcapform, hn2]
    by_cases hchk : 5 * ((insertInit m).nitems + 1)
        > 4 * hm_capacity (insertInit m)
    · rw [if_pos hchk]
      obtain ⟨h1, h2⟩ := hstage1
      rcases Nat.lt_or_ge (hm_capacity (insertInit m)) 2 with hc2 | hc2
      · have hcc : hm_capacity (insertInit m) = 1 := by omega
        rw [hcc] at h2 ⊢
        have hnn : (insertInit m).nitems = 0 := by omega
        rw [hnn]
        omega
      · omega
    · rw [if_neg hchk]
      obtain ⟨h1, h2⟩ := hstage1
      omega

/-- `hashmap_iter` visits exactly the items of the table, in order. -/
theorem hm_iterList_eq {K V : Type} (m : HMap K V) :
    hm_iterList m = (allEntriesFn m).map (fun e => (e.key, e.data)) := by
  unfold hm_iterList allEntriesFn
  suffices h : ∀ (bs : List (List (HEntry K V))) (acc : List (K × Option V)),
      bs.foldl (fun acc chain => acc ++ chain.map (fun e => (e.key, e.data))) acc
        = acc ++ bs.flatten.map (fun e => (e.key, e.data)) by
    have h2 := h (bucketsOf m) []
    simpa using h2
  intro bs
  induction bs with
  | nil => intro acc; simp
  | cons chain rest ih =>
    intro acc
    rw [List.foldl_cons, ih, List.flatten_cons, List.map_append,
      List.append_assoc]

/-- The invariant, the policy functions, and (absent any `reserve`) the
load-factor bound all persist along arbitrary operation sequences. -/
theorem fold_inv {K V : Type} [DecidableEq K] :
    ∀ (ops : List (HOp K V)) (m : HMap K V), HWf m →
      GoodPolicy m.hash m.cmp →
      HWf (ops.foldl applyH m) ∧
      (ops.foldl applyH m).hash = m.hash ∧
      (ops.foldl applyH m).cmp = m.cmp ∧
      ((∀ op ∈ ops, ∀ c, op ≠ HOp.res c) →
        (m.items = none ∨ 0 < hm_capacity m) →
        (0 < hm_capacity m → 5 * m.nitems ≤ 4 * hm_capacity m) →
        ((ops.foldl applyH m).items = none ∨
          0 < hm_capacity (ops.foldl applyH m)) ∧
        (0 < hm_capacity (ops.foldl applyH m) →
          5 * (ops.foldl applyH m).nitems
            ≤ 4 * hm_capacity (ops.foldl applyH m))) := by
  intro ops
  induction ops with
  | nil => intro m hw _; exact ⟨hw, rfl, rfl, fun _ hit hld => ⟨hit, hld⟩⟩
  | cons op rest ih =>
    intro m hw hp
    rw [List.foldl_cons]
    have hstep : HWf (applyH m op) ∧ (applyH m op).hash = m.hash ∧
        (applyH m op).cmp = m.cmp := by
      cases op with
      | ins k v =>
        obtain ⟨h1, h2, h3, _⟩ := hm_insert_spec hw hp k v
        exact ⟨h1, h2, h3⟩
      | rem k =>
        obtain ⟨h1, h2, h3, _⟩ := hm_remove_spec hw hp k
        exact ⟨h1, h2, h3⟩
      | res c =>
        obtain ⟨h1, _, _, h2, h3, _⟩ := hm_reserve_spec hw c
        exact ⟨h1, h2, h3⟩
    have hp' : GoodPolicy (applyH m op).hash (applyH m op).cmp := by
      rw [hstep.2.1, hstep.2.2]; exact hp
    obtain ⟨hwf, hh, hc, hbound⟩ := ih (applyH m op) hstep.1 hp'
    refine ⟨hwf, hh.trans hstep.2.1, hc.trans hstep.2.2, ?_⟩
    intro hnores hit hld
    have hnores' : ∀ op2 ∈ rest, ∀ c, op2 ≠ HOp.res c :=
      fun op2 h2 => hnores op2 (List.mem_cons_of_mem op h2)
    have hstepload : ((applyH m op).items = none ∨
        0 < hm_capacity (applyH m op)) ∧
        (0 < hm_capacity (applyH m op) →
          5 * (applyH m op).nitems ≤ 4 * hm_capacity (applyH m op)) := by
      cases op with
      | ins k v =>
        obtain ⟨hpos, hbnd⟩ := hm_insert_load hw hp k v hit hld
        exact ⟨Or.inr hpos, fun _ => hbnd⟩
      | rem k =>
        obtain ⟨_, _, _, hcap, hfalse, htrue, _⟩ := hm_remove_spec hw hp k
        by_cases hcont : hm_contains m k = true
        · obtain ⟨e₀, P, S, _, _, _, _, hnit⟩ := htrue hcont
          constructor
          · right
            show 0 < hm_capacity (hm_remove m k).2
            rw [hcap]
            exact cap_pos_of_contains hcont
          · intro _
            show 5 * (hm_remove m k).2.nitems
              ≤ 4 * hm_capacity (hm_remove m k).2
            rw [hcap, hnit]
            have hl := hld (cap_pos_of_contains hcont)
            omega
        · have hre : hm_remove m k = (none, m) :=
            hfalse (by simpa using hcont)
          show ((hm_remove m k).2.items = none ∨
              0 < hm_capacity (hm_remove m k).2) ∧
            (0 < hm_capacity (hm_remove m k).2 →
              5 * (hm_remove m k).2.nitems
                ≤ 4 * hm_capacity (hm_remove m k).2)
          rw [hre]
          exact ⟨hit, hld⟩
      | res c => exact absurd rfl (hnores (.res c) (List.mem_cons_self _ _) c)
    exact hbound hnores' hstepload.1 hstepload.2

/-! ### Concrete policy and maps for the witnesses -/

/-- Identity hash on small naturals (a stand-in `u64` hash). -/
def hashN : Nat → Nat := fun n => n

/-- Equality comparator on naturals (a stand-in key comparator). -/
def cmpN : Nat → Nat → Bool := fun a b => a == b

theorem goodPolicyN : GoodPolicy hashN cmpN := by
  refine ⟨?_, ?_, ?_, ?_⟩
  · intro k
    simp [cmpN]
  · intro a b h
    simp only [cmpN, beq_iff_eq] at h ⊢
    omega
  · intro a b c h1 h2
    simp only [cmpN, beq_iff_eq] at h1 h2 ⊢
    omega
  · intro a b h
    simp only [cmpN, beq_iff_eq] at h
    simp [hashN, h]

/-- The map produced by inserting `(1, 10)` then `(2, 20)` into a fresh map
with the identity policy (capacity 4, two singleton chains). -/
def mW : HMap Nat Nat :=
  ⟨hashN, cmpN, some [[], [⟨1, some 10⟩], [⟨2, some 20⟩], []], 2⟩

/-- The map after additionally inserting `(3, 30)`: three items at
capacity 4, so one more insert trips the `0.8` load-factor check. -/
def mW3 : HMap Nat Nat :=
  ⟨hashN, cmpN, some [[], [⟨1, some 10⟩], [⟨2, some 20⟩], [⟨3, some 30⟩]], 3⟩

/-- A fresh map into which the caller stored a `NULL` value handle. -/
def mNull : HMap Nat Nat := hm_insert (hashmap_new hashN cmpN) 5 none

/-! ### The hash-map claims -/

/-- Claim C1, counterexample to the `contains`/`get` agreement as stated:
after `hashmap_insert(map, 5, NULL)` the key is present — `hashmap_contains`
returns `true` — but `hashmap_get` returns the stored value handle, which is
`NULL`, the very absent sentinel. -/
theorem c1_null_value_counterexample :
    hm_contains mNull 5 = true ∧ hm_get mNull 5 = none := by decide

/-- Claim C1 (amended).  For every well-formed map with a sane hash/compare
policy: `get` of a key just inserted with value `v` returns `v`, and keeps
returning `v` across any further operations that neither insert a
comparator-equal key nor remove one (reserves are always harmless); and —
provided no stored value handle is `NULL` — `contains(map,k)` is `true`
exactly when `get(map,k)` is non-absent.  (A stored `NULL` value makes
`contains` true while `get` reports the absent sentinel; see the
counterexample.) -/
theorem c1_insert_get_persists {K V : Type} [DecidableEq K]
    (m : HMap K V) (k : K) (v : Option V) (ops : List (HOp K V))
    (hw : HWf m) (hp : GoodPolicy m.hash m.cmp)
    (havoid : ∀ op ∈ ops, avoidsKey m.cmp k op)
    (hnn : ∀ e ∈ allEntriesFn m, e.data ≠ none) :
    hm_get (hm_insert m k v) k = v ∧
    hm_get (ops.foldl applyH (hm_insert m k v)) k = v ∧
    (hm_contains m k = true ↔ hm_get m k ≠ none) := by
  obtain ⟨hwi, hhi, hci, hget, _, _, _⟩ := hm_insert_spec hw hp k v
  have hpi : GoodPolicy (hm_insert m k v).hash (hm_insert m k v).cmp := by
    rw [hhi, hci]; exact hp
  have havoid' : ∀ op ∈ ops, avoidsKey (hm_insert m k v).cmp k op := by
    rw [hci]; exact havoid
  obtain ⟨hpers, _, _, _⟩ := get_persists ops (hm_insert m k v) hwi hpi k havoid'
  refine ⟨hget, hpers.trans hget, ?_⟩
  rw [hm_contains_eq_findE, hm_get_eq_findE]
  cases hfe : hm_findE m k with
  | none => simp
  | some e =>
    simp only [Option.isSome_some]
    have hmem : e ∈ allEntriesFn m := by
      rw [findE_eq] at hfe
      exact getD_mem_flatten _ (List.mem_of_find?_eq_some hfe)
    simp [hnn e hmem]

theorem c1_witness :
    hm_get (hm_insert mW 3 (some 33)) 3 = some 33 ∧
    hm_get ([HOp.ins 7 (some 70), HOp.res 10, HOp.rem 7].foldl applyH
      (hm_insert mW 3 (some 33))) 3 = some 33 ∧
    (hm_contains mW 3 = true ↔ hm_get mW 3 ≠ none) :=
  c1_insert_get_persists mW 3 (some 33)
    [HOp.ins 7 (some 70), HOp.res 10, HOp.rem 7]
    (by decide) goodPolicyN (by decide) (by decide)

/-- Claim C4.  `hashmap_reserve` on a live well-formed map: a request below
the current item count is a no-op reported as success; a request at or above
the count sets the capacity to exactly the request, preserves every key's
`get`/`contains` observation, and permutes — never loses or duplicates — the
items visited by `hashmap_iter`. -/
theorem c4_reserve_spec {K V : Type} (m : HMap K V) (c : Nat)
    (hw : HWf m) (hp : GoodPolicy m.hash m.cmp) :
    (c < hm_len m → hashmap_reserve (some m) c = (true, some m)) ∧
    (hm_len m ≤ c →
      hm_capacity (hm_reserve m c) = c ∧
      (∀ k, hm_get (hm_reserve m c) k = hm_get m k ∧
        hm_contains (hm_reserve m c) k = hm_contains m k) ∧
      (hm_iterList (hm_reserve m c)).Perm (hm_iterList m)) := by
  constructor
  · intro hlt
    show (true, some (hm_reserve m c)) = (true, some m)
    unfold hm_len at hlt
    unfold hm_reserve
    rw [if_pos hlt]
  · intro hge
    have hnlt : ¬ c < m.nitems := by
      unfold hm_len at hge
      omega
    obtain ⟨hwre, hperm, _, hhre, hcre, hcap⟩ := hm_reserve_spec hw c
    have hfe : ∀ k, hm_findE (hm_reserve m c) k = hm_findE m k := fun k =>
      findE_congr hw hwre hhre hcre hp k (fun e _ => hperm.mem_iff.symm)
    refine ⟨by rw [hcap, if_neg hnlt], ?_, ?_⟩
    · intro k
      constructor
      · rw [hm_get_eq_findE]
        show (match hm_findE (hm_reserve m c) k with
          | some e => e.data | none => none) = _
        rw [hfe k, ← hm_get_eq_findE]
      · rw [hm_contains_eq_findE]
        show (hm_findE (hm_reserve m c) k).isSome = _
        rw [hfe k, ← hm_contains_eq_findE]
    · rw [hm_iterList_eq, hm_iterList_eq]
      exact hperm.map _

theorem c4_witness :
    hm_capacity (hm_reserve mW 7) = 7 ∧
    hm_get (hm_reserve mW 7) 1 = hm_get mW 1 ∧
    hm_contains (hm_reserve mW 7) 2 = hm_contains mW 2 ∧
    (hm_iterList (hm_reserve mW 7)).Perm (hm_iterList mW) := by
  have h := (c4_reserve_spec mW 7 (by decide) goodPolicyN).2 (by decide)
  exact ⟨h.1, (h.2.1 1).1, (h.2.1 2).2, h.2.2⟩

/-- Claim C7, counterexample to the load-factor invariant as stated: the
public operation sequence `insert(0, 1); reserve(1)` is accepted (reserve
only refuses capacities strictly below the count), and leaves a map with
`count = 1 > 0.8 × capacity = 0.8`. -/
def mC7 : HMap Nat Nat :=
  [HOp.ins 0 (some 1), HOp.res 1].foldl applyH (hashmap_new hashN cmpN)

theorem c7_reserve_breaks_load_factor :
    hm_len mC7 = 1 ∧
    hm_len mC7 = ((bucketsOf mC7).map List.length).sum ∧
    hm_capacity mC7 = 1 ∧
    ¬ 5 * hm_len mC7 ≤ 4 * hm_capacity mC7 := by decide

/-- Claim C7 (amended).  Along every sequence of public operations from
`hashmap_new`, `count` equals the total number of items across all chains;
and for sequences of `insert`/`remove` alone (no `reserve`), the proactive
growth of insert maintains `count ≤ 0.8 × capacity` (as `5·count ≤
4·capacity`) whenever the capacity is positive.  A `hashmap_reserve` to a
capacity in `[count, 1.25·count)` breaks the bound, as the counterexample
shows. -/
theorem c7_count_and_load {K V : Type} [DecidableEq K] (hash : K → Nat)
    (cmp : K → K → Bool) (hp : GoodPolicy hash cmp) (ops : List (HOp K V)) :
    (ops.foldl applyH (hashmap_new hash cmp)).nitems
      = ((bucketsOf (ops.foldl applyH (hashmap_new hash cmp))).map
          List.length).sum ∧
    ((∀ op ∈ ops, ∀ c, op ≠ HOp.res c) →
      0 < hm_capacity (ops.foldl applyH (hashmap_new hash cmp)) →
      5 * (ops.foldl applyH (hashmap_new hash cmp)).nitems
        ≤ 4 * hm_capacity (ops.foldl applyH (hashmap_new hash cmp))) := by
  obtain ⟨hwf, _, _, hbound⟩ :=
    fold_inv ops (hashmap_new hash cmp) (HWf_new hash cmp) hp
  constructor
  · rw [hwf.1, allEntriesFn, List.length_flatten]
  · intro hnores
    exact (hbound hnores (Or.inl rfl)
      (fun h => absurd h (Nat.lt_irrefl 0))).2

theorem c7_witness :
    ([HOp.ins 1 (some 10), HOp.ins 2 (some 20), HOp.rem 1].foldl applyH
        (hashmap_new hashN cmpN)).nitems
      = ((bucketsOf ([HOp.ins 1 (some 10), HOp.ins 2 (some 20),
          HOp.rem 1].foldl applyH (hashmap_new hashN cmpN))).map
            List.length).sum ∧
    5 * ([HOp.ins 1 (some 10), HOp.ins 2 (some 20), HOp.rem 1].foldl applyH
        (hashmap_new hashN cmpN)).nitems
      ≤ 4 * hm_capacity ([HOp.ins 1 (some 10), HOp.ins 2 (some 20),
          HOp.rem 1].foldl applyH (hashmap_new hashN cmpN)) := by
  have h := c7_count_and_load hashN cmpN goodPolicyN
    [HOp.ins 1 (some 10), HOp.ins 2 (some 20), HOp.rem 1]
  exact ⟨h.1, h.2 (by simp) (by decide)⟩

/-- Claim C9.  On a live well-formed map whose load factor is within bound,
overwriting an already-present key keeps the item count and the stored key
multiset, replaces only that key's value handle, and leaves every unrelated
lookup unchanged — yet the growth check still runs: the capacity doubles
exactly when `count + 1` exceeds `0.8 × capacity`, even though the count
does not grow. -/
theorem c9_overwrite_insert {K V : Type} [DecidableEq K] (m : HMap K V)
    (k : K) (v : Option V) (hw : HWf m) (hp : GoodPolicy m.hash m.cmp)
    (hpresent : hm_contains m k = true)
    (hload : 5 * m.nitems ≤ 4 * hm_capacity m) :
    hm_len (hm_insert m k v) = hm_len m ∧
    ((allEntriesFn (hm_insert m k v)).map (·.key)).Perm
      ((allEntriesFn m).map (·.key)) ∧
    hm_get (hm_insert m k v) k = v ∧
    (∀ k₂, m.cmp k k₂ = false →
      hm_get (hm_insert m k v) k₂ = hm_get m k₂) ∧
    hm_capacity (hm_insert m k v) =
      (if 5 * (m.nitems + 1) > 4 * hm_capacity m
       then 2 * hm_capacity m else hm_capacity m) := by
  obtain ⟨hwi, hhi, hci, hget, hframe, hcont, _⟩ := hm_insert_spec hw hp k v
  obtain ⟨hn, hkeys, hcap⟩ := hcont hpresent
  refine ⟨hn, hkeys, hget, ?_, hcap hload⟩
  intro k₂ hk2
  rw [hm_get_eq_findE]
  show (match hm_findE (hm_insert m k v) k₂ with
    | some e => e.data | none => none) = _
  rw [hframe k₂ hk2, ← hm_get_eq_findE]

theorem c9_witness :
    hm_len (hm_insert mW3 1 (some 99)) = hm_len mW3 ∧
    hm_get (hm_insert mW3 1 (some 99)) 1 = some 99 ∧
    hm_get (hm_insert mW3 1 (some 99)) 2 = hm_get mW3 2 ∧
    hm_capacity mW3 = 4 ∧
    hm_capacity (hm_insert mW3 1 (some 99)) = 8 := by
  obtain ⟨h1, _, h3, h4, h5⟩ := c9_overwrite_insert mW3 1 (some 99)
    (by decide) goodPolicyN (by decide) (by decide)
  refine ⟨h1, h3, h4 2 (by decide), by decide, ?_⟩
  rw [h5]
  decide

/-! ## The doubly linked list (`list.c`)

A node (`struct node`) owns `prev`/`next` pointers and a payload; the model
addresses nodes by natural numbers.  The heap is the association list of the
allocated nodes; `LState.fresh` is the next unused address (`malloc` always
succeeds in the model).  The live-list functions below translate the bodies
of `list_new`, `list_append`, `list_insert` and `list_reverse`; the `!list`
NULL-handle guards are the callers' concern and the pointer dereferences
that C performs without a check appear as `match` arms returning failure —
those arms are unreachable on well-formed states. -/

structure LNode (V : Type) where
  prev : Option Nat
  next : Option Nat
  data : V
deriving DecidableEq

structure LState (V : Type) where
  heap : List (Nat × LNode V)
  fresh : Nat
  head : Option Nat
  tail : Option Nat
  len : Nat
deriving DecidableEq

/-- Dereference the node at address `a` (NULL-safe read). -/
def hget {V : Type} (h : List (Nat × LNode V)) (a : Nat) : Option (LNode V) :=
  (h.find? (fun q => q.1 == a)).map (fun q => q.2)

/-- Store a whole node through the pointer `a`. -/
def hsetN {V : Type} (h : List (Nat × LNode V)) (a : Nat) (n : LNode V) :
    List (Nat × LNode V) :=
  h.map (fun q => if q.1 = a then (q.1, n) else q)

/-- `node->next = v` through the pointer `a`. -/
def hsetNext {V : Type} (h : List (Nat × LNode V)) (a : Nat) (v : Option Nat) :
    List (Nat × LNode V) :=
  h.map (fun q => if q.1 = a then (q.1, ⟨q.2.prev, v, q.2.data⟩) else q)

/-- `node->prev = v` through the pointer `a`. -/
def hsetPrev {V : Type} (h : List (Nat × LNode V)) (a : Nat) (v : Option Nat) :
    List (Nat × LNode V) :=
  h.map (fun q => if q.1 = a then (q.1, ⟨v, q.2.next, q.2.data⟩) else q)

/-- `for (i = 0; i < n; i++) curr = curr->next` starting from `cur`. -/
def walkN {V : Type} (h : List (Nat × LNode V)) : Nat → Option Nat → Option Nat
  | 0, cur => cur
  | i + 1, cur =>
    walkN h i (match cur with
      | none => none
      | some a => (hget h a).bind (fun n => n.next))

/-- `list_new`: empty list, all fields zeroed. -/
def list_new {V : Type} : LState V := ⟨[], 0, none, none, 0⟩

/-- `list_append`: link a fresh node after the tail. -/
def list_append {V : Type} (st : LState V) (x : V) : Bool × LState V :=
  (true, ⟨(match st.tail with
      | some t => hsetNext (st.heap ++ [(st.fresh, ⟨st.tail, none, x⟩)]) t
          (some st.fresh)
      | none => st.heap ++ [(st.fresh, ⟨st.tail, none, x⟩)]),
    st.fresh + 1,
    (match st.head with
      | none => some st.fresh
      | some hd => some hd),
    some st.fresh, st.len + 1⟩)

/-- `list_insert`: out-of-bounds check, then the `index == 0`,
`index == len` and interior splice branches in source order. -/
def list_insert {V : Type} (st : LState V) (index : Nat) (x : V) :
    Bool × LState V :=
  if index > st.len then (false, st)
  else if index = 0 then
    (true, ⟨(match st.head with
      | some hd => hsetPrev (st.heap ++ [(st.fresh, ⟨none, st.head, x⟩)]) hd
          (some st.fresh)
      | none => st.heap ++ [(st.fresh, ⟨none, st.head, x⟩)]),
      st.fresh + 1, some st.fresh, st.tail, st.len + 1⟩)
  else if index = st.len then
    (true, ⟨(match st.tail with
      | some t => hsetNext (st.heap ++ [(st.fresh, ⟨st.tail, none, x⟩)]) t
          (some st.fresh)
      | none => st.heap ++ [(st.fresh, ⟨st.tail, none, x⟩)]),
      st.fresh + 1, st.head, some st.fresh, st.len + 1⟩)
  else
    match walkN st.heap index st.head with
    | none => (false, st)
    | some c =>
      match hget st.heap c with
      | none => (false, st)
      | some cn =>
        match cn.prev with
        | none => (false, st)
        | some pa =>
          (true, ⟨hsetPrev
            (hsetNext (st.heap ++ [(st.fresh, ⟨some pa, some c, x⟩)]) pa
              (some st.fresh)) c (some st.fresh),
            st.fresh + 1, st.head, st.tail, st.len + 1⟩)

/-- The `while (node)` body of `list_reverse`: swap `prev`/`next` of the
current node and step to the old `next` (`node->prev` after the swap).  The
fuel is the list's length; on a well-formed list the walk ends exactly when
the fuel runs out. -/
def revLoop {V : Type} : Nat → List (Nat × LNode V) → Option Nat →
    List (Nat × LNode V)
  | 0, h, _ => h
  | f + 1, h, cur =>
    match cur with
    | none => h
    | some a =>
      match hget h a with
      | none => h
      | some n => revLoop f (hsetN h a ⟨n.next, n.prev, n.data⟩) n.next

/-- `list_reverse`: failure on an empty list, else swap every node's
pointers and swap `head`/`tail`. -/
def list_reverse {V : Type} (st : LState V) : Bool × LState V :=
  if st.head = none then (false, st)
  else (true, ⟨revLoop st.len st.heap st.head, st.fresh, st.tail, st.head,
    st.len⟩)

/-- The chain predicate: walking `addrs` through the heap, the first node's
`prev` is `p`, consecutive nodes point at each other, and the last node's
`next` is `q`. -/
def chain2 {V : Type} (h : List (Nat × LNode V)) :
    Option Nat → List Nat → Option Nat → Bool
  | _, [], _ => true
  | p, a :: rest, q =>
    match hget h a with
    | none => false
    | some n =>
      decide (n.prev = p) && decide (n.next = (rest.head?).or q) &&
        chain2 h (some a) rest q

/-- Well-formedness of a list state: `addrs` is the node chain from head to
tail, both endpoint pointers and the length agree with it, the addresses are
distinct, and so are the heap's keys. -/
def LWf {V : Type} (st : LState V) (addrs : List Nat) : Prop :=
  chain2 st.heap none addrs none = true ∧
  st.head = addrs.head? ∧
  st.tail = addrs.getLast? ∧
  st.len = addrs.length ∧
  addrs.Nodup ∧
  (st.heap.map Prod.fst).Nodup

instance LWf.decidable {V : Type} (st : LState V) (addrs : List Nat) :
    Decidable (LWf st addrs) := by
  unfold LWf
  infer_instance

/-- Pointer swap of a single node. -/
def swapN {V : Type} (n : LNode V) : LNode V := ⟨n.next, n.prev, n.data⟩

/-- Swap the pointers of every node whose address lies in `addrs`. -/
def mapSwap {V : Type} (h : List (Nat × LNode V)) (addrs : List Nat) :
    List (Nat × LNode V) :=
  h.map (fun q => if q.1 ∈ addrs then (q.1, swapN q.2) else q)

theorem swapN_swapN {V : Type} (n : LNode V) : swapN (swapN n) = n := by
  cases n; rfl

theorem mapSwap_nil {V : Type} (h : List (Nat × LNode V)) :
    mapSwap h [] = h := by
  unfold mapSwap
  simp

theorem hget_cons {V : Type} (q : Nat × LNode V) (t : List (Nat × LNode V))
    (a : Nat) : hget (q :: t) a = if q.1 = a then some q.2 else hget t a := by
  unfold hget
  by_cases hqa : q.1 = a
  · rw [List.find?_cons_of_pos _ (by simp [hqa]), if_pos hqa]
    rfl
  · rw [List.find?_cons_of_neg _ (by simp [hqa]), if_neg hqa]

theorem fst_hsetN {V : Type} (h : List (Nat × LNode V)) (a : Nat)
    (n : LNode V) : (hsetN h a n).map Prod.fst = h.map Prod.fst := by
  unfold hsetN
  rw [List.map_map]
  refine List.map_congr_left ?_
  intro q _
  by_cases hq : q.1 = a <;> simp [hq]

theorem fst_mapSwap {V : Type} (h : List (Nat × LNode V)) (addrs : List Nat) :
    (mapSwap h addrs).map Prod.fst = h.map Prod.fst := by
  unfold mapSwap
  rw [List.map_map]
  refine List.map_congr_left ?_
  intro q _
  by_cases hq : q.1 ∈ addrs <;> simp [hq]

theorem hget_hsetN_ne {V : Type} (h : List (Nat × LNode V)) (a b : Nat)
    (n : LNode V) (hne : b ≠ a) : hget (hsetN h a n) b = hget h b := by
  induction h with
  | nil => rfl
  | cons q t ih =>
    show hget ((if q.1 = a then (q.1, n) else q) :: hsetN t a n) b = _
    rw [hget_cons, hget_cons]
    by_cases hqa : q.1 = a
    · subst hqa
      rw [if_pos rfl]
      have hqb : ¬ (q.1, n).1 = b := fun he => hne he.symm
      rw [if_neg hqb, if_neg (show ¬ q.1 = b from fun he => hne he.symm)]
      exact ih
    · rw [if_neg hqa]
      by_cases hqb : q.1 = b
      · rw [if_pos hqb, if_pos hqb]
      · rw [if_neg hqb, if_neg hqb]
        exact ih

theorem hget_eq_of_mem {V : Type} (h : List (Nat × LNode V))
    (hk : (h.map Prod.fst).Nodup) (q : Nat × LNode V) (hq : q ∈ h) :
    hget h q.1 = some q.2 := by
  induction h with
  | nil => cases hq
  | cons p t ih =>
    rw [List.map_cons, List.nodup_cons] at hk
    rw [hget_cons]
    rcases List.mem_cons.mp hq with rfl | hmem
    · rw [if_pos rfl]
    · have hne : ¬ p.1 = q.1 := by
        intro he
        exact hk.1 (he ▸ List.mem_map_of_mem Prod.fst hmem)
      rw [if_neg hne]
      exact ih hk.2 hmem

theorem hget_mapSwap {V : Type} (h : List (Nat × LNode V)) (addrs : List Nat)
    (a : Nat) : hget (mapSwap h addrs) a
      = (hget h a).map (fun n => if a ∈ addrs then swapN n else n) := by
  induction h with
  | nil => rfl
  | cons q t ih =>
    show hget ((if q.1 ∈ addrs then (q.1, swapN q.2) else q) :: mapSwap t
      addrs) a = _
    rw [hget_cons, hget_cons]
    by_cases hqa : q.1 = a
    · subst hqa
      by_cases hmem : q.1 ∈ addrs <;> simp [hmem]
    · by_cases hmem : q.1 ∈ addrs <;> simp [hmem, hqa, ih]

theorem mapSwap_cons {V : Type} (h : List (Nat × LNode V)) (a : Nat)
    (rest : List Nat) (n : LNode V) (hk : (h.map Prod.fst).Nodup)
    (hg : hget h a = some n) (hna : a ∉ rest) :
    mapSwap (hsetN h a (swapN n)) rest = mapSwap h (a :: rest) := by
  unfold mapSwap hsetN
  rw [List.map_map]
  refine List.map_congr_left ?_
  intro q hq
  show (fun q => if q.1 ∈ rest then (q.1, swapN q.2) else q)
      (if q.1 = a then (q.1, swapN n) else q)
    = if q.1 ∈ a :: rest then (q.1, swapN q.2) else q
  by_cases hqa : q.1 = a
  · subst hqa
    have hq2 : q.2 = n := by
      have h2 := hget_eq_of_mem h hk q hq
      rw [hg] at h2
      exact (Option.some_inj.mp h2).symm
    rw [if_pos rfl]
    show (if (q.1, swapN n).1 ∈ rest then _ else _) = _
    rw [if_neg (show ¬ (q.1, swapN n).1 ∈ rest from hna),
      if_pos (List.mem_cons_self q.1 rest), hq2]
  · rw [if_neg hqa]
    show (if q.1 ∈ rest then (q.1, swapN q.2) else q)
      = if q.1 ∈ a :: rest then (q.1, swapN q.2) else q
    by_cases hmem : q.1 ∈ rest
    · rw [if_pos hmem, if_pos (List.mem_cons_of_mem a hmem)]
    · rw [if_neg hmem, if_neg (by simp [List.mem_cons, hqa, hmem])]

theorem chain2_congr {V : Type} (h₁ h₂ : List (Nat × LNode V)) :
    ∀ (addrs : List Nat) (p q : Option Nat),
    (∀ b ∈ addrs, hget h₁ b = hget h₂ b) →
    chain2 h₁ p addrs q = chain2 h₂ p addrs q := by
  intro addrs
  induction addrs with
  | nil => intro p q _; rfl
  | cons a rest ih =>
    intro p q hh
    unfold chain2
    rw [hh a (List.mem_cons_self a rest)]
    cases hget h₂ a with
    | none => rfl
    | some n =>
      rw [ih (some a) q (fun b hb => hh b (List.mem_cons_of_mem a hb))]

theorem getLast?_cons_or (x : Nat) (xs : List Nat) (p : Option Nat) :
    ((x :: xs).getLast?).or p = (xs.getLast?).or (some x) := by
  induction xs generalizing x with
  | nil => rfl
  | cons y ys _ =>
    rw [List.getLast?_cons_cons]
    obtain ⟨l, hl⟩ := Option.isSome_iff_exists.mp
      (List.getLast?_isSome.mpr (List.cons_ne_nil y ys))
    rw [hl]
    rfl

theorem chain2_snoc {V : Type} (h : List (Nat × LNode V)) :
    ∀ (xs : List Nat) (p q : Option Nat) (a : Nat),
    chain2 h p (xs ++ [a]) q =
      (chain2 h p xs (some a) &&
        match hget h a with
        | none => false
        | some n =>
          decide (n.prev = (xs.getLast?).or p) && decide (n.next = q)) := by
  intro xs
  induction xs with
  | nil =>
    intro p q a
    show chain2 h p [a] q = _
    unfold chain2
    cases hget h a with
    | none => rfl
    | some n =>
      show (decide (n.prev = p) && decide (n.next = Option.or none q)
          && true) = _
      simp [Option.none_or]
  | cons x xs' ih =>
    intro p q a
    show chain2 h p (x :: (xs' ++ [a])) q = _
    unfold chain2
    cases hget h x with
    | none => rfl
    | some n =>
      rw [ih (some x) q a]
      have hhd : ((xs' ++ [a]).head?).or q = (xs'.head?).or (some a) := by
        cases xs' <;> rfl
      rw [hhd, getLast?_cons_or]
      cases hget h a with
      | none => simp
      | some m => simp [Bool.and_assoc]

theorem chain2_reverse {V : Type} :
    ∀ (addrs : List Nat) (h : List (Nat × LNode V)) (p q : Option Nat),
    addrs.Nodup → chain2 h p addrs q = true →
    chain2 (mapSwap h addrs) q addrs.reverse p = true := by
  intro addrs
  induction addrs with
  | nil => intro h p q _ _; rfl
  | cons a rest ih =>
    intro h p q hnd hch
    unfold chain2 at hch
    cases hg : hget h a with
    | none => rw [hg] at hch; cases hch
    | some n =>
      rw [hg] at hch
      simp only [Bool.and_eq_true, decide_eq_true_eq] at hch
      obtain ⟨⟨hprev, hnext⟩, hrest⟩ := hch
      rw [List.nodup_cons] at hnd
      rw [List.reverse_cons, chain2_snoc]
      have hcongr : chain2 (mapSwap h (a :: rest)) q rest.reverse (some a)
          = chain2 (mapSwap h rest) q rest.reverse (some a) := by
        refine chain2_congr _ _ _ _ _ ?_
        intro b hb
        have hbr : b ∈ rest := List.mem_reverse.mp hb
        rw [hget_mapSwap, hget_mapSwap]
        simp [hbr]
      rw [hcongr, ih h (some a) q hnd.2 hrest]
      have hga : hget (mapSwap h (a :: rest)) a = some (swapN n) := by
        rw [hget_mapSwap, hg]
        simp
      rw [hga]
      simp only [Bool.true_and, Bool.and_eq_true, decide_eq_true_eq]
      constructor
      · show n.next = (rest.reverse.getLast?).or q
        rw [List.getLast?_reverse]
        exact hnext
      · exact hprev

theorem revLoop_eq {V : Type} :
    ∀ (addrs : List Nat) (h : List (Nat × LNode V)) (p q : Option Nat),
    addrs.Nodup → (h.map Prod.fst).Nodup → chain2 h p addrs q = true →
    revLoop addrs.length h addrs.head? = mapSwap h addrs := by
  intro addrs
  induction addrs with
  | nil => intro h p q _ _ _; exact (mapSwap_nil h).symm
  | cons a rest ih =>
    intro h p q hnd hk hch
    unfold chain2 at hch
    cases hg : hget h a with
    | none => rw [hg] at hch; cases hch
    | some n =>
      rw [hg] at hch
      simp only [Bool.and_eq_true, decide_eq_true_eq] at hch
      obtain ⟨⟨_, hnext⟩, hrest⟩ := hch
      rw [List.nodup_cons] at hnd
      show revLoop (rest.length + 1) h (some a) = _
      have hk' : ((hsetN h a (swapN n)).map Prod.fst).Nodup := by
        rw [fst_hsetN]; exact hk
      have hch' : chain2 (hsetN h a (swapN n)) (some a) rest q = true := by
        rw [chain2_congr (hsetN h a (swapN n)) h rest (some a) q
          (fun b hb => hget_hsetN_ne h a b (swapN n)
            (fun he => hnd.1 (he ▸ hb)))]
        exact hrest
      have hstep : revLoop (rest.length + 1) h (some a)
          = revLoop rest.length (hsetN h a (swapN n)) n.next := by
        show (match hget h a with
          | none => h
          | some m => revLoop rest.length
              (hsetN h a ⟨m.next, m.prev, m.data⟩) m.next) = _
        rw [hg]
        rfl
      rw [hstep]
      cases rest with
      | nil =>
        show hsetN h a (swapN n) = mapSwap h [a]
        rw [← mapSwap_cons h a [] n hk hg (List.not_mem_nil a), mapSwap_nil]
      | cons b rest' =>
        have hnx : n.next = some b := by simpa using hnext
        rw [hnx]
        have hh := ih (hsetN h a (swapN n)) (some a) q hnd.2 hk' hch'
        rw [show ((b :: rest').head? = some b) from rfl] at hh
        rw [hh, mapSwap_cons h a (b :: rest') n hk hg hnd.1]

theorem mapSwap_mapSwap_reverse {V : Type} (h : List (Nat × LNode V))
    (addrs : List Nat) : mapSwap (mapSwap h addrs) addrs.reverse = h := by
  induction h with
  | nil => rfl
  | cons q t ih =>
    unfold mapSwap at ih ⊢
    rw [List.map_cons, List.map_cons, ih]
    by_cases hmem : q.1 ∈ addrs
    · simp [hmem, List.mem_reverse, swapN_swapN]
    · simp [hmem, List.mem_reverse]

/-- Claim C3, counterexample: starting from `list_new`, inserting one item
at index 0 via `list_insert` succeeds, yet leaves a list with `len == 1`,
`head != NULL` and `tail == NULL` — the `index == 0` branch never updates
`tail`, so the claimed invariant `tail == NULL ⟺ length == 0` fails on a
state reachable by a single public operation.  (The doc of `list_insert`
promises plain success.) -/
theorem c3_insert_breaks_invariants :
    (list_insert (list_new : LState Nat) 0 7).1 = true ∧
    (list_insert (list_new : LState Nat) 0 7).2.len = 1 ∧
    (list_insert (list_new : LState Nat) 0 7).2.head ≠ none ∧
    (list_insert (list_new : LState Nat) 0 7).2.tail = none := by decide

/-- Claim C8.  On a well-formed list whose node chain is `addrs`: if the
list is non-empty, `list_reverse` succeeds, swaps the `head`/`tail` node
identities, yields a well-formed list whose chain is the reversed address
sequence (so the traversal order is exactly reversed), and a second
`list_reverse` succeeds and restores the original state — heap, head, tail,
length and all; on an empty list, `list_reverse` reports failure and changes
nothing. -/
theorem c8_reverse_involution {V : Type} (st : LState V) (addrs : List Nat)
    (hw : LWf st addrs) :
    (addrs ≠ [] →
      (list_reverse st).1 = true ∧
      (list_reverse st).2.head = st.tail ∧
      (list_reverse st).2.tail = st.head ∧
      LWf (list_reverse st).2 addrs.reverse ∧
      (list_reverse (list_reverse st).2).1 = true ∧
      (list_reverse (list_reverse st).2).2 = st) ∧
    (addrs = [] → list_reverse st = (false, st)) := by
  obtain ⟨hch, hhd, htl, hlen, hnd, hk⟩ := hw
  constructor
  · intro hne
    obtain ⟨a0, rest0, he⟩ := List.exists_cons_of_ne_nil hne
    have hhd' : st.head = some a0 := by rw [hhd, he]; rfl
    have hhdne : ¬ st.head = none := by rw [hhd']; exact Option.some_ne_none a0
    have htlne : ¬ st.tail = none := by
      obtain ⟨l, hl⟩ := Option.isSome_iff_exists.mp
        (List.getLast?_isSome.mpr hne)
      rw [htl, hl]
      exact Option.some_ne_none l
    have hloop : revLoop st.len st.heap st.head = mapSwap st.heap addrs := by
      rw [hlen, hhd]
      exact revLoop_eq addrs st.heap none none hnd hk hch
    have hr1 : list_reverse st = (true, ⟨mapSwap st.heap addrs, st.fresh,
        st.tail, st.head, st.len⟩) := by
      unfold list_reverse
      rw [if_neg hhdne, hloop]
    have hw1 : LWf (list_reverse st).2 addrs.reverse := by
      rw [hr1]
      refine ⟨chain2_reverse addrs st.heap none none hnd hch, ?_, ?_, ?_,
        List.nodup_reverse.mpr hnd, ?_⟩
      · show st.tail = addrs.reverse.head?
        rw [htl, List.head?_reverse]
      · show st.head = addrs.reverse.getLast?
        rw [hhd, List.getLast?_reverse]
      · show st.len = addrs.reverse.length
        rw [hlen, List.length_reverse]
      · show ((mapSwap st.heap addrs).map Prod.fst).Nodup
        rw [fst_mapSwap]
        exact hk
    have hloop2 : revLoop st.len (mapSwap st.heap addrs) st.tail
        = mapSwap (mapSwap st.heap addrs) addrs.reverse := by
      rw [hlen, ← List.length_reverse, htl, ← List.head?_reverse]
      exact revLoop_eq addrs.reverse (mapSwap st.heap addrs) none none
        (List.nodup_reverse.mpr hnd)
        (by rw [fst_mapSwap]; exact hk)
        (chain2_reverse addrs st.heap none none hnd hch)
    have hr2 : list_reverse (list_reverse st).2 = (true, st) := by
      rw [hr1]
      unfold list_reverse
      rw [if_neg htlne]
      show (true, LState.mk _ _ _ _ _) = (true, st)
      rw [hloop2, mapSwap_mapSwap_reverse]
    refine ⟨by rw [hr1], by rw [hr1], by rw [hr1], hw1, by rw [hr2],
      by rw [hr2]⟩
  · intro he
    have hhdn : st.head = none := by rw [hhd, he]; rfl
    unfold list_reverse
    rw [if_pos hhdn]

/-- The list `[1, 2, 3]` built by three `list_append` calls. -/
def stW : LState Nat :=
  (list_append (list_append (list_append (list_new : LState Nat) 1).2 2).2
    3).2

theorem c8_witness :
    (list_reverse stW).1 = true ∧
    (list_reverse stW).2.head = stW.tail ∧
    (list_reverse stW).2.tail = stW.head ∧
    (list_reverse (list_reverse stW).2).1 = true ∧
    (list_reverse (list_reverse stW).2).2 = stW := by
  have h := (c8_reverse_involution stW [0, 1, 2] (by decide)).1 (by decide)
  exact ⟨h.1, h.2.1, h.2.2.1, h.2.2.2.2.1, h.2.2.2.2.2⟩

/-- Claim C10.  Every hash-map entry point handed a `NULL` map handle
returns its failure/absent sentinel and has no effect: `insert` and
`reserve` report `false`, `remove` and `get` report `NULL`, `contains`
reports `false`, `capacity` and `len` report 0, and `iter` and `drop`
return without visiting or freeing any item. -/
theorem c10_null_map_ops {K V : Type} [DecidableEq K] (k : K) (v : Option V)
    (c : Nat) :
    hashmap_insert (none : Option (HMap K V)) k v = (false, none) ∧
    hashmap_reserve (none : Option (HMap K V)) c = (false, none) ∧
    hashmap_remove (none : Option (HMap K V)) k = (none, none) ∧
    hashmap_get (none : Option (HMap K V)) k = none ∧
    hashmap_contains (none : Option (HMap K V)) k = false ∧
    hashmap_capacity (none : Option (HMap K V)) = 0 ∧
    hashmap_len (none : Option (HMap K V)) = 0 ∧
    hashmap_iter (none : Option (HMap K V)) = [] ∧
    hashmap_drop (none : Option (HMap K V)) = [] :=
  ⟨rfl, rfl, rfl, rfl, rfl, rfl, rfl, rfl, rfl⟩

end Zakc
